import Mathlib

/-!
Verification of the response-normalization and action-dispatch pipeline of the
jarnox-copilot VS Code extension.

The TypeScript sources embedded here are:
* `src/utils/textProcessor.ts` — `unwrapCodeFence`, `stripComments`,
  `insertTextAtCursors`;
* `src/services/modelActions.ts` — `parseModelAction`, `executeModelAction`,
  `handleCodeInsertion`, `handleFileOperation`, `sanitizeFilePath`,
  `isPathWithinWorkspace`, `createNewFile`, `appendToFile`;
* `src/ui/webviewProvider.ts` — the routing core of `handleUserPrompt` /
  `insertCodeResponse`.

All string processing is modelled over `List Char` (JS strings are sequences of
UTF-16 units; every input relevant here is plain text, so `Char` is faithful),
with `String` wrappers.  JavaScript regular expressions used by the source are
small and concrete; each is compiled by hand to an executable Lean function, and
the accompanying comment records the backtracking analysis that justifies the
translation.  Stateful host operations (VS Code editor and filesystem) are
modelled as explicit traces: each executor returns an outcome together with the
list of capability invocations it performs.
-/

namespace Jarnox

/-- Characters of the JavaScript `\s` class, which is also exactly the set
stripped by `String.prototype.trim`: space, tab, LF, VT, FF, CR, NBSP, Ogham
space mark, the U+2000–U+200A spaces, LS, PS, NNBSP, MMSP, ideographic space
and the BOM. -/
def isJsWs (c : Char) : Bool :=
  c = ' ' || c = '\t' || c = '\n' || c = Char.ofNat 0x0B || c = Char.ofNat 0x0C ||
  c = '\r' || c = Char.ofNat 0xA0 || c = Char.ofNat 0x1680 ||
  (0x2000 ≤ c.toNat && c.toNat ≤ 0x200A) || c = Char.ofNat 0x2028 ||
  c = Char.ofNat 0x2029 || c = Char.ofNat 0x202F || c = Char.ofNat 0x205F ||
  c = Char.ofNat 0x3000 || c = Char.ofNat 0xFEFF

/-- ECMAScript line terminators, the characters after which `^` matches (and
before which `$` matches) in a multiline regex: LF, CR, LS, PS. -/
def isLineTerm (c : Char) : Bool :=
  c = '\n' || c = '\r' || c = Char.ofNat 0x2028 || c = Char.ofNat 0x2029

/-- Does the list start with the given literal pattern. -/
def leadsWith : List Char → List Char → Bool
  | [], _ => true
  | _ :: _, [] => false
  | p :: ps, c :: cs => p = c && leadsWith ps cs

/-- Leading-whitespace trim, the first half of `String.prototype.trim`. -/
def ltrim (l : List Char) : List Char := l.dropWhile isJsWs

/-- Trailing-whitespace strip; also models a `line.replace(/\s+$/g, '')` call
(`$` with no `m` flag anchors at the end of the string, so that regex deletes
exactly the maximal whitespace suffix). -/
def rstrip (l : List Char) : List Char := (l.reverse.dropWhile isJsWs).reverse

/-- JS `String.prototype.trim`. -/
def trimL (l : List Char) : List Char := rstrip (ltrim l)

/-- Index of the first occurrence of the literal pattern (JS `indexOf`,
`none` for `-1`). -/
def firstSub (pat : List Char) : List Char → Option Nat
  | [] => if leadsWith pat [] then some 0 else none
  | s@(_ :: cs) =>
    if leadsWith pat s then some 0 else (firstSub pat cs).map (· + 1)

/-- Index of the last occurrence of the literal pattern (JS `lastIndexOf`,
`none` for `-1`).  Occurrences may overlap, exactly as in JS. -/
def lastSub (pat : List Char) : List Char → Option Nat
  | [] => if leadsWith pat [] then some 0 else none
  | s@(_ :: cs) =>
    match lastSub pat cs with
    | some k => some (k + 1)
    | none => if leadsWith pat s then some 0 else none

/-- Length of the maximal `\s*` run at the front of the list. -/
def wsCount : List Char → Nat
  | [] => 0
  | c :: cs => if isJsWs c then wsCount cs + 1 else 0

/-- Characters of the language-tag class `[A-Za-z0-9_+#.\-]` used by
`unwrapCodeFence`.  Note that the class and `\s` are disjoint. -/
def isTagChar (c : Char) : Bool :=
  ('A' ≤ c && c ≤ 'Z') || ('a' ≤ c && c ≤ 'z') || ('0' ≤ c && c ≤ '9') ||
  c = '_' || c = '+' || c = '#' || c = '.' || c = '-'

/-- Length of the maximal run of language-tag characters at the front. -/
def tagCount : List Char → Nat
  | [] => 0
  | c :: cs => if isTagChar c then tagCount cs + 1 else 0

/-- Index of the last `'\n'` in the list, if any. -/
def lastNl (l : List Char) : Option Nat := lastSub ['\n'] l

/-- The single replacement
`inner.replace(/^\s*[A-Za-z0-9_+#.\-]*\s*\n/, '')` from `unwrapCodeFence`
(both in `textProcessor.ts` line 90 and `textUtils.ts` line 45).

Closed form of the regex engine's leftmost / greedy-with-backtracking search.
The regex is anchored, so a match is a prefix `w1 ++ w2 ++ w3 ++ '\n'` with
`w1 w3 ⊆ \s` and `w2 ⊆` the tag class, explored in lexicographically
decreasing order of (`|w1|`, `|w2|`, `|w3|`).  Because the tag class and `\s`
are disjoint:
* with `w` the maximal whitespace run, `t` the maximal tag run after it and
  `w2max` the maximal whitespace run after that, any attempt with
  `|w1| = w` and `|w2| < t` fails (the next char is a tag char, so the second
  `\s*` is empty and the required `'\n'` is a tag char), hence the first
  branch succeeds iff some `'\n'` lies in the `w2max` window, consuming up to
  the last such `'\n'` (backtracking of the third `\s*` stops at the largest
  offset whose char is `'\n'`);
* otherwise every attempt with `|w1| = a < w` forces `|w2| = 0` (char at `a`
  is whitespace) and succeeds iff some `'\n'` lies in the whitespace prefix
  at offset ≥ `a`; the engine takes the largest such `a`, i.e. the last
  `'\n'` of the leading whitespace run, consuming through it;
* if neither holds there is no match and the string is unchanged. -/
def stripLangTag (l : List Char) : List Char :=
  let w := wsCount l
  let t := tagCount (l.drop w)
  let rest := l.drop (w + t)
  let w2 := wsCount rest
  match lastNl (rest.take w2) with
  | some k => l.drop (w + t + k + 1)
  | none =>
    match lastNl (l.take w) with
    | some k => l.drop (k + 1)
    | none => l

/-- The three-backtick fence marker. -/
def fenceL : List Char := "```".data

/-- Embedding of `unwrapCodeFence` (`textProcessor.ts` lines 75–97; the copy in
`textUtils.ts` lines 38–49 is textually identical logic): find the first and
last occurrence of the fence marker; if both exist with the last strictly
after the first, take the slice strictly between them, strip the
language-tag line via `stripLangTag`, and trim; otherwise trim the whole
input.  `(s.drop (i+3)).take (j - (i+3))` is JS `slice(i+3, j)`, which yields
the empty string when `j < i+3`. -/
def unwrapCodeFenceL (s : List Char) : List Char :=
  if s = [] then []
  else
    match firstSub fenceL s, lastSub fenceL s with
    | some i, some j =>
      if i < j then trimL (stripLangTag ((s.drop (i + 3)).take (j - (i + 3))))
      else trimL s
    | _, _ => trimL s

/-- String-level wrapper for `unwrapCodeFenceL`. -/
def unwrapCodeFence (s : String) : String := ⟨unwrapCodeFenceL s.data⟩

/-- Split at the first occurrence of a literal pattern: the part strictly
before the occurrence and the part strictly after it. -/
def splitFirst (pat : List Char) : List Char → Option (List Char × List Char)
  | [] => if leadsWith pat [] then some ([], []) else none
  | s@(c :: cs) =>
    if leadsWith pat s then some ([], s.drop pat.length)
    else (splitFirst pat cs).map (fun p => (c :: p.1, p.2))

theorem leadsWith_append_drop :
    ∀ (pat s : List Char), leadsWith pat s = true → pat ++ s.drop pat.length = s
  | [], _, _ => rfl
  | _ :: _, [], h => by simp [leadsWith] at h
  | p :: ps, c :: cs, h => by
    simp only [leadsWith, Bool.and_eq_true, decide_eq_true_eq] at h
    obtain ⟨rfl, h2⟩ := h
    simpa using leadsWith_append_drop ps cs h2

theorem splitFirst_eq (pat : List Char) :
    ∀ (s a b : List Char), splitFirst pat s = some (a, b) → a ++ pat ++ b = s := by
  intro s
  induction s with
  | nil =>
    intro a b h
    simp only [splitFirst] at h
    split at h
    · next hl =>
      have hp : pat = [] := by
        cases pat with
        | nil => rfl
        | cons p ps => simp [leadsWith] at hl
      simp only [Option.some.injEq, Prod.mk.injEq] at h
      obtain ⟨rfl, rfl⟩ := h
      simp [hp]
    · exact absurd h (by simp)
  | cons c cs ih =>
    intro a b h
    simp only [splitFirst] at h
    split at h
    · next hl =>
      simp only [Option.some.injEq, Prod.mk.injEq] at h
      obtain ⟨rfl, rfl⟩ := h
      simpa using leadsWith_append_drop pat (c :: cs) hl
    · simp only [Option.map_eq_some'] at h
      obtain ⟨⟨a', b'⟩, hsp, heq⟩ := h
      simp only [Prod.mk.injEq] at heq
      obtain ⟨rfl, rfl⟩ := heq
      simpa using ih a' b' hsp

/-- Embedding of one global non-greedy span removal
`s.replace(/OPN[\s\S]*?CLS/g, '')` for literal markers `OPN`, `CLS` —
`stripComments` applies this for `<!-- ... -->` (`textProcessor.ts` line 121)
and `/* ... */` (line 124).  JS `replace` with `/g` collects non-overlapping
matches left to right on the original string: the leftmost match begins at the
first occurrence of `OPN` that has some `CLS` after it, and the non-greedy
body ends at the first such `CLS`; scanning resumes after the match.  If the
first `OPN` has no following `CLS` then no later `OPN` has one either, so
nothing matches.  (The `opn = []` guard is a totality artifact: both call
sites pass a nonempty marker.) -/
def removeSpansF (opn cls : List Char) : Nat → List Char → List Char
  | 0, s => s
  | fuel + 1, s =>
    match splitFirst opn s with
    | none => s
    | some (pre, rest) =>
      match splitFirst cls rest with
      | none => s
      | some (_, after) => pre ++ removeSpansF opn cls fuel after

/-- Wrapper fixing the fuel of `removeSpansF`.  Each successful iteration
consumes at least `|opn| ≥ 1` characters (the two call sites pass nonempty
markers), so `s.length` steps always suffice: the fuel-0 branch is reached
only on the empty remainder, where it coincides with the no-match branch. -/
def removeSpans (opn cls : List Char) (s : List Char) : List Char :=
  removeSpansF opn cls s.length s

/-- Length of the maximal run of non-line-terminator characters, i.e. what a
greedy `.*` consumes (ECMAScript `.` excludes LF, CR, LS, PS). -/
def lineRun : List Char → Nat
  | [] => 0
  | c :: cs => if isLineTerm c then 0 else lineRun cs + 1

/-- Match length of `^\s*\/\/.*$` at a line start (for
`s.replace(/^\s*\/\/.*$/gm, '')`, `textProcessor.ts` line 127).  The pattern
is anchored, so matches start only at line starts; since no `\s` character is
`'/'`, backtracking the `\s*` cannot create a match, so there is a match
exactly when the maximal whitespace run (which may span line terminators,
i.e. blank lines) is followed by `"//"`, and `.*$` then extends the match to
the end of that line. -/
def slashMatch (s : List Char) : Option Nat :=
  if leadsWith "//".data (s.drop (wsCount s)) then
    some (wsCount s + 2 + lineRun (s.drop (wsCount s + 2)))
  else none

/-- Match length of `^\s*#(?!\!).*$` at a line start (for
`s.replace(/^\s*#(?!\!).*$/gm, '')`, `textProcessor.ts` line 130).  As for
`slashMatch`, a match exists exactly when the maximal whitespace run is
followed by `'#'` whose next character is not `'!'` (the negative lookahead
preserving shebang lines); `.*$` extends the match to the end of the line. -/
def hashMatch (s : List Char) : Option Nat :=
  match s.drop (wsCount s) with
  | c :: rest =>
    if c = '#' then
      if leadsWith ['!'] rest then none else some (wsCount s + 1 + lineRun rest)
    else none
  | [] => none

/-- Driver for one global multiline line-comment removal
`s.replace(re, '')` where `re` is anchored (`^...`) and every match ends at a
line end (just before a line terminator or at the end of input), as computed
by `slashMatch` / `hashMatch`.  The argument is always positioned at a line
start of the original string.  If the matcher fires, the matched span is
dropped and — matching JS `/g` semantics, which resumes scanning after the
match — the line terminator at the match end is emitted and scanning resumes
at the next line start.  If not, no match can begin before the next line
start (the regex is anchored), so the current line and its terminator are
emitted verbatim.  (The `some 0` fallthrough into the no-match branch is a
totality artifact: both matchers return lengths ≥ 1.) -/
def remLinesF (m : List Char → Option Nat) : Nat → List Char → List Char
  | 0, s => s
  | _ + 1, [] => []
  | fuel + 1, c :: cs =>
    match m (c :: cs) with
    | some (n + 1) =>
      match (c :: cs).drop (n + 1) with
      | [] => []
      | t :: r => t :: remLinesF m fuel r
    | _ =>
      match (c :: cs).drop (lineRun (c :: cs)) with
      | [] => c :: cs
      | t :: r => (c :: cs).take (lineRun (c :: cs)) ++ t :: remLinesF m fuel r

/-- Wrapper fixing the fuel of `remLinesF`.  Each step consumes at least one
character before recursing, so `s.length` steps always suffice: the fuel-0
branch is reached only on the empty remainder, where it returns `[]`
unchanged exactly like the `[]` branch. -/
def remLines (m : List Char → Option Nat) (s : List Char) : List Char :=
  remLinesF m s.length s

/-- Prepend a character to the first piece of a split (helper for
`splitLines`). -/
def consHead (c : Char) : List (List Char) → List (List Char)
  | l :: ls => (c :: l) :: ls
  | [] => [[c]]

def splitLinesF : Nat → List Char → List (List Char)
  | 0, s => [s]
  | _ + 1, [] => [[]]
  | fuel + 1, c :: rest =>
    if c = '\n' then [] :: splitLinesF fuel rest
    else if c = '\r' ∧ rest.head? = some '\n' then [] :: splitLinesF fuel rest.tail
    else consHead c (splitLinesF fuel rest)

/-- JS `s.split(/\r?\n/)` (`textProcessor.ts` line 137): scanning left to
right, each `"\r\n"` pair or bare `"\n"` is a separator (`\r?` greedily
consumes a CR immediately before the LF); a lone CR is not a separator.
The fuel of `splitLinesF` is fixed at `s.length`; every step consumes at
least one character, so the fuel-0 branch is reached only on the empty
remainder, where `[s] = [[]]` agrees with the empty-input branch. -/
def splitLines (s : List Char) : List (List Char) := splitLinesF s.length s

/-- JS `line.trim() === ''`: true exactly when every character is whitespace. -/
def isBlank (l : List Char) : Bool := l.all isJsWs

/-- Rejoin lines with a single `'\n'` separator (`lines.join('\n')`). -/
def joinNl : List (List Char) → List Char
  | [] => []
  | l :: ls =>
    match ls with
    | [] => l
    | _ :: _ => l ++ '\n' :: joinNl ls

/-- Post-processing tail of `stripComments` (`textProcessor.ts` lines
136–141): split into lines on `/\r?\n/`, strip trailing whitespace from each
line, drop lines that are blank, rejoin with `'\n'`, and trim the result. -/
def postProcess (s : List Char) : List Char :=
  trimL (joinNl (((splitLines s).map rstrip).filter (fun l => !isBlank l)))

/-- Literal marker `<!--`. -/
def htmlOpen : List Char := "<!--".data

/-- Literal marker `-->`. -/
def htmlClose : List Char := "-->".data

/-- Literal marker `/*`. -/
def blockOpen : List Char := "/*".data

/-- Literal marker `*/`. -/
def blockClose : List Char := "*/".data

/-- Embedding of `stripComments` (`textProcessor.ts` lines 115–144): empty
input short-circuits to the empty string; otherwise remove HTML comment
spans, then block comment spans, then full `//` lines, then full `#` lines
(preserving shebangs), then post-process. -/
def stripCommentsL (s : List Char) : List Char :=
  if s = [] then []
  else
    postProcess (remLines hashMatch (remLines slashMatch
      (removeSpans blockOpen blockClose (removeSpans htmlOpen htmlClose s))))

/-- String-level wrapper for `stripCommentsL`. -/
def stripComments (s : String) : String := ⟨stripCommentsL s.data⟩

/-! JSON values and a parser with `JSON.parse` semantics, needed to embed
`parseModelAction` (`modelActions.ts` lines 42–98; `textUtils.ts` lines
67–86 is the same logic).  Number lexemes are kept as text: the source only
inspects the runtime type of parsed fields, never numeric values. -/

/-- A parsed JSON value.  Object fields are kept in source order, with
duplicates; lookup takes the last occurrence, matching the JS object built by
`JSON.parse` where later assignments win. -/
inductive JVal
  | jnull
  | jbool (b : Bool)
  | jnum (lex : List Char)
  | jstr (s : List Char)
  | jarr (xs : List JVal)
  | jobj (fields : List (List Char × JVal))

/-- JSON insignificant whitespace (RFC 8259): space, tab, LF, CR — a strictly
smaller set than the regex class `\s`. -/
def isJsonWs (c : Char) : Bool :=
  c = ' ' || c = '\t' || c = '\n' || c = '\r'

/-- ASCII digit, tested on the code point. -/
def isDigit (c : Char) : Bool := 48 ≤ c.toNat && c.toNat ≤ 57

/-- ASCII hex digit value, if any, computed on the code point (48-57 are the
digits, 97-102 lowercase a-f, 65-70 uppercase A-F). -/
def hexVal (c : Char) : Option Nat :=
  let n := c.toNat
  if 48 ≤ n && n ≤ 57 then some (n - 48)
  else if 97 ≤ n && n ≤ 102 then some (n - 87)
  else if 65 ≤ n && n ≤ 70 then some (n - 55)
  else none

/-- Maximal digit run at the front. -/
def spanDigits : List Char → List Char × List Char
  | [] => ([], [])
  | c :: cs =>
    if isDigit c then
      match spanDigits cs with
      | (a, b) => (c :: a, b)
    else ([], c :: cs)

/-- Parse four hex digits into a code unit. -/
def parseHex4 : List Char → Option (Nat × List Char)
  | a :: b :: c :: d :: rest =>
    match hexVal a, hexVal b, hexVal c, hexVal d with
    | some x, some y, some z, some w => some (((x * 16 + y) * 16 + z) * 16 + w, rest)
    | _, _, _, _ => none
  | _ => none

/-- Parse the body of a JSON string, positioned just after the opening quote.
Implements the RFC 8259 escapes.  A `\uXXXX` high surrogate followed by a
`\uXXXX` low surrogate combines into one code point; an unpaired surrogate
becomes U+FFFD (a JS string would keep the lone UTF-16 unit, which `Char`
cannot represent; no behaviour verified here depends on that corner).  Raw
control characters below U+0020 are rejected, as `JSON.parse` does. -/
def parseStr : Nat → List Char → Option (List Char × List Char)
  | 0, _ => none
  | _ + 1, [] => none
  | fuel + 1, c :: rest =>
    if c = '"' then some ([], rest)
    else if c = '\\' then
      match rest with
      | [] => none
      | e :: rest2 =>
        if e = '"' ∨ e = '\\' ∨ e = '/' then
          (parseStr fuel rest2).map (fun p => (e :: p.1, p.2))
        else if e = 'b' then (parseStr fuel rest2).map (fun p => (Char.ofNat 8 :: p.1, p.2))
        else if e = 'f' then (parseStr fuel rest2).map (fun p => (Char.ofNat 12 :: p.1, p.2))
        else if e = 'n' then (parseStr fuel rest2).map (fun p => ('\n' :: p.1, p.2))
        else if e = 'r' then (parseStr fuel rest2).map (fun p => ('\r' :: p.1, p.2))
        else if e = 't' then (parseStr fuel rest2).map (fun p => ('\t' :: p.1, p.2))
        else if e = 'u' then
          match parseHex4 rest2 with
          | none => none
          | some (h, rest3) =>
            if 0xD800 ≤ h ∧ h ≤ 0xDBFF then
              match rest3 with
              | '\\' :: 'u' :: rest4 =>
                match parseHex4 rest4 with
                | some (l, rest5) =>
                  if 0xDC00 ≤ l ∧ l ≤ 0xDFFF then
                    (parseStr fuel rest5).map
                      (fun p => (Char.ofNat (0x10000 + (h - 0xD800) * 0x400 + (l - 0xDC00)) :: p.1, p.2))
                  else (parseStr fuel rest3).map (fun p => (Char.ofNat 0xFFFD :: p.1, p.2))
                | none => (parseStr fuel rest3).map (fun p => (Char.ofNat 0xFFFD :: p.1, p.2))
              | _ => (parseStr fuel rest3).map (fun p => (Char.ofNat 0xFFFD :: p.1, p.2))
            else if 0xDC00 ≤ h ∧ h ≤ 0xDFFF then
              (parseStr fuel rest3).map (fun p => (Char.ofNat 0xFFFD :: p.1, p.2))
            else (parseStr fuel rest3).map (fun p => (Char.ofNat h :: p.1, p.2))
        else none
    else if c.toNat < 0x20 then none
    else (parseStr fuel rest).map (fun p => (c :: p.1, p.2))

/-- Parse a JSON number lexeme: `-? (0 | [1-9][0-9]*) (\.[0-9]+)? ([eE][+-]?[0-9]+)?`. -/
def parseNum (s : List Char) : Option (List Char × List Char) :=
  let (sgn, s1) := match s with
    | '-' :: r => (['-'], r)
    | _ => (([] : List Char), s)
  match s1 with
  | [] => none
  | c :: r1 =>
    if ¬ isDigit c then none
    else
      let (ip, s2) := if c = '0' then (['0'], r1) else
        match spanDigits r1 with
        | (ds, rest) => (c :: ds, rest)
      let (fp, s3) : List Char × List Char := match s2 with
        | '.' :: r2 =>
          (match spanDigits r2 with
           | ([], _) => ([], s2)
           | (ds, rest) => ('.' :: ds, rest))
        | _ => ([], s2)
      if fracBad : (s2.head? = some '.' ∧ fp = []) then none
      else
        let (ep, s4) : List Char × List Char := match s3 with
          | e :: r3 =>
            if e = 'e' ∨ e = 'E' then
              (match r3 with
               | sg :: r4 =>
                 if sg = '+' ∨ sg = '-' then
                   (match spanDigits r4 with
                    | ([], _) => ([], s3)
                    | (ds, rest) => (e :: sg :: ds, rest))
                 else
                   (match spanDigits r3 with
                    | ([], _) => ([], s3)
                    | (ds, rest) => (e :: ds, rest))
               | [] => ([], s3))
            else ([], s3)
          | [] => ([], s3)
        if expBad : ((s3.head? = some 'e' ∨ s3.head? = some 'E') ∧ ep = []) then none
        else some (sgn ++ ip ++ fp ++ ep, s4)

/-- Parsing mode of `parseCore`: a single value, the members of an object
(after its `'{'`), or the elements of an array (after its `'['`). -/
inductive PMode
  | val
  | members
  | elements

/-- Result of `parseCore`, one constructor per mode. -/
inductive PRes
  | v (x : JVal) (rest : List Char)
  | fields (fs : List (List Char × JVal)) (rest : List Char)
  | elems (xs : List JVal) (rest : List Char)

/-- The recursive core of the JSON grammar, structurally recursive on fuel so
that it evaluates by kernel reduction.  Each recursive call consumes at least
one input character per unit of fuel, so fuel `length + 1` never runs out. -/
def parseCore : Nat → PMode → List Char → Option PRes
  | 0, _, _ => none
  | fuel + 1, .val, s =>
    match s.dropWhile isJsonWs with
    | [] => none
    | c :: rest =>
      if c = '{' then
        match rest.dropWhile isJsonWs with
        | '}' :: rest2 => some (.v (.jobj []) rest2)
        | _ =>
          match parseCore fuel .members rest with
          | some (.fields fs rest2) => some (.v (.jobj fs) rest2)
          | _ => none
      else if c = '[' then
        match rest.dropWhile isJsonWs with
        | ']' :: rest2 => some (.v (.jarr []) rest2)
        | _ =>
          match parseCore fuel .elements rest with
          | some (.elems xs rest2) => some (.v (.jarr xs) rest2)
          | _ => none
      else if c = '"' then (parseStr (rest.length + 1) rest).map (fun p => .v (.jstr p.1) p.2)
      else if leadsWith "null".data (c :: rest) then some (.v .jnull ((c :: rest).drop 4))
      else if leadsWith "true".data (c :: rest) then some (.v (.jbool true) ((c :: rest).drop 4))
      else if leadsWith "false".data (c :: rest) then some (.v (.jbool false) ((c :: rest).drop 5))
      else if c = '-' ∨ isDigit c then (parseNum (c :: rest)).map (fun p => .v (.jnum p.1) p.2)
      else none
  | fuel + 1, .members, s =>
    match s.dropWhile isJsonWs with
    | '"' :: rest =>
      match parseStr (rest.length + 1) rest with
      | none => none
      | some (key, rest2) =>
        match rest2.dropWhile isJsonWs with
        | ':' :: rest3 =>
          match parseCore fuel .val rest3 with
          | some (.v v rest4) =>
            (match rest4.dropWhile isJsonWs with
             | ',' :: rest5 =>
               (match parseCore fuel .members rest5 with
                | some (.fields fs rest6) => some (.fields ((key, v) :: fs) rest6)
                | _ => none)
             | '}' :: rest5 => some (.fields [(key, v)] rest5)
             | _ => none)
          | _ => none
        | _ => none
    | _ => none
  | fuel + 1, .elements, s =>
    match parseCore fuel .val s with
    | some (.v v rest) =>
      (match rest.dropWhile isJsonWs with
       | ',' :: rest2 =>
         (match parseCore fuel .elements rest2 with
          | some (.elems xs rest3) => some (.elems (v :: xs) rest3)
          | _ => none)
       | ']' :: rest2 => some (.elems [v] rest2)
       | _ => none)
    | _ => none

/-- `JSON.parse` on a complete text: one value, with only whitespace allowed
around it. -/
def jsonParse (s : List Char) : Option JVal :=
  match parseCore (s.length + 1) .val s with
  | some (.v v rest) => if rest.dropWhile isJsonWs = [] then some v else none
  | _ => none

/-- Property lookup on the object built by `JSON.parse`: the last assignment
of a duplicated key wins. -/
def jlookup (fields : List (List Char × JVal)) (k : List Char) : Option JVal :=
  match fields with
  | [] => none
  | (k', v) :: rest =>
    match jlookup rest k with
    | some v' => some v'
    | none => if k' = k then some v else none

/-- JS `obj?.key`: `undefined` (`none`) whenever the value is not an object
or lacks the key. -/
def jget (v : JVal) (k : List Char) : Option JVal :=
  match v with
  | .jobj f => jlookup f k
  | _ => none

/-- The closed action vocabulary of `ModelAction` (`modelActions.ts` line 26). -/
inductive ActionKind
  | create_file
  | append_file
  | insert_code
deriving DecidableEq, Repr

/-- Embedding of the `ModelAction` record (`modelActions.ts` lines 25–29):
a validated tag plus optional `path` and `content` strings. -/
structure ModelAction where
  action : ActionKind
  path : Option String := none
  content : Option String := none
deriving DecidableEq, Repr

/-- The `validActions.includes(actionType)` check plus the cast to the tag
type (`modelActions.ts` lines 70–79). -/
def kindOf (a : List Char) : Option ActionKind :=
  if a = "create_file".data then some .create_file
  else if a = "append_file".data then some .append_file
  else if a = "insert_code".data then some .insert_code
  else none

/-- `typeof obj.key === 'string' ? obj.key : undefined`: the verbatim string
field copy performed for `path` and `content` (`modelActions.ts` lines
83–89). -/
def jgetStr (v : JVal) (k : List Char) : Option String :=
  match jget v k with
  | some (.jstr s) => some ⟨s⟩
  | _ => none

/-- Validation step of the parser (`modelActions.ts` lines 63–91): the parsed
object must carry a string `action` in the vocabulary; `path` / `content`
are copied exactly when present as strings. -/
def buildAction (v : JVal) : Option ModelAction :=
  match jget v "action".data with
  | some (.jstr a) =>
    match kindOf a with
    | some k =>
      some { action := k, path := jgetStr v "path".data, content := jgetStr v "content".data }
    | none => none
  | _ => none

/-- Embedding of `parseModelAction` (`modelActions.ts` lines 42–98): trim;
empty text has no action; find the first `'{'` and last `'}'` (either
missing, or the `'}'` not strictly after the `'{'`, means no action); run
`JSON.parse` on that slice (failure means no action, never an exception);
validate with `buildAction`. -/
def parseModelActionL (s : List Char) : Option ModelAction :=
  let t := trimL s
  if t = [] then none
  else
    match firstSub [Char.ofNat 0x7B] t, lastSub [Char.ofNat 0x7D] t with
    | some i, some j =>
      if j ≤ i then none
      else
        match jsonParse ((t.drop i).take (j + 1 - i)) with
        | some v => buildAction v
        | none => none
    | _, _ => none

/-- String-level wrapper for `parseModelActionL`. -/
def parseModelAction (s : String) : Option ModelAction := parseModelActionL s.data

/-- Result of the response pipeline: a validated action to execute, or plain
text to insert. -/
inductive PipelineResult
  | action (a : ModelAction)
  | text (t : String)
deriving DecidableEq, Repr

/-- Routing core of `webviewProvider.handleUserPrompt` (lines 176–236) and
`insertCodeResponse` (lines 247–272): try the action parser first; on
success the action is executed, otherwise the raw response is cleaned by
`unwrapCodeFence` then `stripComments` and inserted as plain text. -/
def handleUserPrompt (raw : String) : PipelineResult :=
  match parseModelAction raw with
  | some a => .action a
  | none => .text (stripComments (unwrapCodeFence raw))

/-! Path resolution.  `handleFileOperation` builds the target with
`vscode.Uri.joinPath(workspaceRoot, ...pathSegments)`, which applies node's
`path.posix.join` to the root's path, i.e. joins the nonempty fragments with
`'/'` and normalizes (resolving `.` and `..` and collapsing separator runs). -/

/-- Split a character list at every separator character. -/
def splitBy (p : Char → Bool) : List Char → List (List Char)
  | [] => [[]]
  | c :: rest => if p c then [] :: splitBy p rest else consHead c (splitBy p rest)

/-- Join path segments with `'/'`. -/
def joinSlash : List (List Char) → List Char
  | [] => []
  | seg :: segs =>
    match segs with
    | [] => seg
    | _ :: _ => seg ++ '/' :: joinSlash segs

/-- The segment-resolution loop of node's `normalizeString`: `''` and `'.'`
segments are dropped; `'..'` pops the last kept segment, except that with
`allowAboveRoot` (relative paths) a `'..'` that cannot pop is kept, while
for absolute paths it is discarded.  The first argument is the stack of kept
segments in reverse order. -/
def resolveSegs (allowAboveRoot : Bool) : List (List Char) → List (List Char) → List (List Char)
  | stack, [] => stack.reverse
  | stack, seg :: rest =>
    if seg = [] ∨ seg = ['.'] then resolveSegs allowAboveRoot stack rest
    else if seg = "..".data then
      match stack with
      | top :: stack2 =>
        if top = "..".data then resolveSegs allowAboveRoot (seg :: top :: stack2) rest
        else resolveSegs allowAboveRoot stack2 rest
      | [] =>
        if allowAboveRoot then resolveSegs allowAboveRoot [seg] rest
        else resolveSegs allowAboveRoot [] rest
    else resolveSegs allowAboveRoot (seg :: stack) rest

/-- Node `path.posix.normalize`: resolve segments, then restore the leading
separator of an absolute path and a single trailing separator if the input
had one; an empty resolution yields `'/'` (absolute), `'./'` (relative with
trailing separator) or `'.'`. -/
def posixNormalize (p : List Char) : List Char :=
  if p = [] then ['.']
  else
    let isAbs := p.head? = some '/'
    let trail := p.getLast? = some '/'
    let core := joinSlash (resolveSegs (!isAbs) [] (splitBy (· = '/') p))
    if core = [] then
      if isAbs then ['/'] else if trail then ['.', '/'] else ['.']
    else
      (if isAbs then '/' :: core else core) ++ (if trail then ['/'] else [])

/-- Node `path.posix.join`: drop empty arguments, join the rest with `'/'`,
and normalize; with nothing left the result is `'.'`. -/
def posixJoin (parts : List (List Char)) : List Char :=
  match parts.filter (· ≠ []) with
  | [] => ['.']
  | nonempty => posixNormalize (joinSlash nonempty)

/-- `vscode.Uri.joinPath(root, ...segs)` on the path component. -/
def uriJoinPath (rootPath : List Char) (segs : List (List Char)) : List Char :=
  posixJoin (rootPath :: segs)

/-- Slash or backslash, the separator class `[/\\]` of `modelActions.ts`. -/
def isSlashy (c : Char) : Bool := c = '/' || c = '\\'

/-- Embedding of `sanitizeFilePath` (`modelActions.ts` lines 233–236):
`path.replace(/^([/\\])+/, '')` deletes the maximal leading run of slashes
and backslashes. -/
def sanitizeFilePathL (p : List Char) : List Char := p.dropWhile isSlashy

/-- `sanitizedPath.split(/[\/\\]+/).filter(Boolean)` (`modelActions.ts` line
188): splitting on runs of separators and dropping empty pieces equals
splitting on single separators and dropping empty pieces. -/
def pathSegments (p : List Char) : List (List Char) :=
  (splitBy isSlashy p).filter (· ≠ [])

/-- Embedding of `isPathWithinWorkspace` (`modelActions.ts` lines 249–255):
the target's path string must start with the workspace root's path carrying
a trailing separator (added unless already present). -/
def isPathWithinWorkspace (filePath rootPath : List Char) : Bool :=
  let wsp := if rootPath.getLast? = some '/' then rootPath else rootPath ++ ['/']
  leadsWith wsp filePath

/-- The content combination of `appendToFile` (`modelActions.ts` lines
287–311): a read failure (absent file) is treated as empty existing content;
a single `'\n'` separator is inserted exactly when the existing content is
nonempty and does not already end with `'\n'`. -/
def appendCombineL (existing : Option (List Char)) (content : List Char) : List Char :=
  let ex := existing.getD []
  let needsNewline := ex ≠ [] ∧ ex.getLast? ≠ some '\n'
  ex ++ (if needsNewline then ['\n'] else []) ++ content

/-- String-level wrapper for `appendCombineL`. -/
def appendCombine (existing : Option String) (content : String) : String :=
  ⟨appendCombineL (existing.map String.data) content.data⟩

/-- Invocations of the filesystem capability traced by the executor model:
`vscode.workspace.fs.createDirectory` and `vscode.workspace.fs.writeFile`. -/
inductive FsOp
  | createDir (path : List Char)
  | write (path : List Char) (content : List Char)
deriving DecidableEq, Repr

/-- Outcome reported by `handleFileOperation`. -/
inductive FileOutcome
  | noWorkspace
  | missingPath
  | pathEscape
  | done (target : List Char)
deriving DecidableEq, Repr

/-- Embedding of `handleFileOperation` (`modelActions.ts` lines 167–221) as a
trace semantics: given the optional workspace root path and the current file
contents `fs`, return the reported outcome together with the list of
filesystem-capability invocations, in order.  `if (!action.path)` is JS
falsiness: both an absent and an empty path refuse with the missing-path
outcome.  The confinement check runs strictly before any trace entry is
produced; on refusal the trace is empty.  For `create_file` the action's
content (defaulted to empty) is written; for `append_file` the combined
content; `insert_code` never reaches this function through
`executeModelAction`, and the source's `if`/`else if` would perform no write
for it. -/
def handleFileOperation (ws : Option (List Char)) (fs : List Char → Option (List Char))
    (act : ModelAction) : FileOutcome × List FsOp :=
  match ws with
  | none => (.noWorkspace, [])
  | some root =>
    match act.path with
    | none => (.missingPath, [])
    | some p =>
      if p.data = [] then (.missingPath, [])
      else
        let segs := pathSegments (sanitizeFilePathL p.data)
        let target := uriJoinPath root segs
        if ¬ isPathWithinWorkspace target root then (.pathEscape, [])
        else
          let dirOps := if segs.length > 1 then
              [FsOp.createDir (uriJoinPath root segs.dropLast)] else []
          let content := (act.content.getD "").data
          match act.action with
          | .create_file => (.done target, dirOps ++ [.write target content])
          | .append_file =>
            (.done target, dirOps ++ [.write target (appendCombineL (fs target) content)])
          | .insert_code => (.done target, dirOps)

/-- An active text editor: the `selection.active` positions of its current
selections, abstracted as opaque position values. -/
structure Editor where
  selections : List Nat
deriving DecidableEq, Repr

/-- Embedding of `insertTextAtCursors` (`textProcessor.ts` lines 157–169):
append a trailing `'\n'` unless one is already present, then insert that same
text at every selection's active position. -/
def insertTextAtCursors (ed : Editor) (text : List Char) : List (Nat × List Char) :=
  let textToInsert := if text.getLast? = some '\n' then text else text ++ ['\n']
  ed.selections.map (fun pos => (pos, textToInsert))

/-- Outcome reported by `handleCodeInsertion`. -/
inductive InsertOutcome
  | noEditor
  | emptyContent
  | inserted (chars : Nat)
deriving DecidableEq, Repr

/-- Embedding of `handleCodeInsertion` (`modelActions.ts` lines 133–156):
without an active editor nothing happens; otherwise the content (defaulted
to empty) is cleaned by `unwrapCodeFence` then `stripComments`; an empty
result reports the empty-content outcome with no insertion, else the cleaned
text is inserted at all cursors. -/
def handleCodeInsertion (ed : Option Editor) (content : Option String) :
    InsertOutcome × List (Nat × List Char) :=
  match ed with
  | none => (.noEditor, [])
  | some e =>
    let cleanCode := stripCommentsL (unwrapCodeFenceL (content.getD "").data)
    if cleanCode = [] then (.emptyContent, [])
    else (.inserted cleanCode.length, insertTextAtCursors e cleanCode)

/-- Result of `executeModelAction`: either an insertion trace or a
file-operation trace. -/
inductive ExecResult
  | insertion (o : InsertOutcome) (ops : List (Nat × List Char))
  | fileOp (o : FileOutcome) (ops : List FsOp)
deriving DecidableEq, Repr

/-- Embedding of `executeModelAction` (`modelActions.ts` lines 110–121):
`insert_code` is routed to `handleCodeInsertion`, file actions to
`handleFileOperation`. -/
def executeModelAction (ws : Option (List Char)) (fs : List Char → Option (List Char))
    (ed : Option Editor) (act : ModelAction) : ExecResult :=
  match act.action with
  | .insert_code =>
    match handleCodeInsertion ed act.content with
    | (o, ops) => .insertion o ops
  | _ =>
    match handleFileOperation ws fs act with
    | (o, ops) => .fileOp o ops

/-! Claim theorems. -/

/-- C1 (amended): for every file action (`create_file` / `append_file`) and
every non-empty path string, if the target obtained by stripping leading
slashes/backslashes, splitting on runs of slash/backslash (discarding empty
segments) and joining the segments onto the sandbox root fails the
workspace-prefix check (`isPathWithinWorkspace`, which compares against the
root's path carrying exactly one appended trailing separator unless one is
already present), then the executor reports the path-escape outcome and its
trace of filesystem-capability invocations is empty: zero writes and zero
directory creations, the confinement check running strictly before any I/O. -/
theorem C1_path_escape_refused (root : List Char) (fs : List Char → Option (List Char))
    (k : ActionKind) (p : String) (c : Option String)
    (hk : k ≠ ActionKind.insert_code)
    (hp : p.data ≠ [])
    (hesc : isPathWithinWorkspace
      (uriJoinPath root (pathSegments (sanitizeFilePathL p.data))) root = false) :
    handleFileOperation (some root) fs { action := k, path := some p, content := c } =
      (FileOutcome.pathEscape, []) := by
  simp [handleFileOperation, hp, hesc]

/-- Witness for `C1_path_escape_refused`: a concrete `..`-traversal out of the
sandbox root `/ws` is refused with an empty trace. -/
theorem C1_path_escape_refused_witness :
    ActionKind.create_file ≠ ActionKind.insert_code ∧
    ("../../etc/passwd" : String).data ≠ [] ∧
    isPathWithinWorkspace
      (uriJoinPath "/ws".data (pathSegments (sanitizeFilePathL ("../../etc/passwd" : String).data)))
      "/ws".data = false ∧
    handleFileOperation (some "/ws".data) (fun _ => none)
      { action := .create_file, path := some "../../etc/passwd", content := some "x" } =
      (FileOutcome.pathEscape, []) :=
  ⟨by decide, by decide, by decide,
    C1_path_escape_refused "/ws".data (fun _ => none) .create_file "../../etc/passwd" (some "x")
      (by decide) (by decide) (by decide)⟩

/-- Counterexample to C1 as stated (which quantifies over every path string):
for the empty path the resolved target `/ws` does fail the prefix check, yet
the executor reports the missing-path outcome — not path-escape — because
`if (!action.path)` refuses JS-falsy paths before any resolution.  It still
performs no I/O. -/
theorem C1_cex_empty_path :
    isPathWithinWorkspace
      (uriJoinPath "/ws".data (pathSegments (sanitizeFilePathL ("" : String).data)))
      "/ws".data = false ∧
    handleFileOperation (some "/ws".data) (fun _ => none)
      { action := .create_file, path := some "", content := none } =
      (FileOutcome.missingPath, []) ∧
    FileOutcome.missingPath ≠ FileOutcome.pathEscape :=
  ⟨by decide, by decide, by decide⟩

/-- Helper: a pattern can only lead a list at least as long as itself. -/
theorem leadsWith_length : ∀ (pat s : List Char), leadsWith pat s = true → pat.length ≤ s.length
  | [], _, _ => by simp
  | _ :: _, [], h => by simp [leadsWith] at h
  | p :: ps, c :: cs, h => by
    simp only [leadsWith, Bool.and_eq_true] at h
    have := leadsWith_length ps cs h.2
    simp only [List.length_cons]
    omega

/-- Helper: the head surviving a `dropWhile` fails the predicate. -/
theorem head?_dropWhile (p : Char → Bool) :
    ∀ (l : List Char) (c : Char), (l.dropWhile p).head? = some c → p c = false := by
  intro l
  induction l with
  | nil => intro c h; simp at h
  | cons a as ih =>
    intro c h
    by_cases hp : p a
    · rw [List.dropWhile_cons_of_pos hp] at h
      exact ih c h
    · rw [List.dropWhile_cons_of_neg hp] at h
      simp only [List.head?_cons, Option.some.injEq] at h
      subst h
      simpa using hp

/-- Helper: the last character of an `rstrip` result is never whitespace. -/
theorem rstrip_getLast (l : List Char) (c : Char) (h : (rstrip l).getLast? = some c) :
    isJsWs c = false := by
  unfold rstrip at h
  rw [List.getLast?_reverse] at h
  exact head?_dropWhile isJsWs l.reverse c h

/-- Helper: the last character of a `trimL` result is never whitespace. -/
theorem trimL_getLast (l : List Char) (c : Char) (h : (trimL l).getLast? = some c) :
    isJsWs c = false :=
  rstrip_getLast (ltrim l) c h

/-- Helper: `stripComments` output never ends in whitespace — in particular
never in a newline — because it ends with a whole-string trim. -/
theorem stripCommentsL_getLast (s : List Char) (c : Char)
    (h : (stripCommentsL s).getLast? = some c) : isJsWs c = false := by
  unfold stripCommentsL at h
  split at h
  · simp at h
  · exact trimL_getLast _ c h

/-- Helper: appending a singleton fixes the last element. -/
theorem getLast?_append_single {α : Type} (l : List α) (a : α) :
    (l ++ [a]).getLast? = some a :=
  List.getLast?_concat l

/-- C2: when the action parser yields no action, the pipeline returns plain
text equal to `stripComments (unwrapCodeFence raw)` and never an action;
when it yields an action, exactly that action is routed to the executor. -/
theorem C2_pipeline_routing (raw : String) :
    (parseModelAction raw = none →
      handleUserPrompt raw = .text (stripComments (unwrapCodeFence raw))) ∧
    (∀ a : ModelAction, parseModelAction raw = some a → handleUserPrompt raw = .action a) := by
  constructor
  · intro h
    simp [handleUserPrompt, h]
  · intro a h
    simp [handleUserPrompt, h]

/-- Witness for `C2_pipeline_routing`: a fenced code response (no parsable
action) becomes cleaned text, and an embedded action object is routed as
that exact action. -/
theorem C2_pipeline_routing_witness :
    handleUserPrompt "plain text response" =
      .text (stripComments (unwrapCodeFence "plain text response")) ∧
    handleUserPrompt "\x7b\"action\":\"insert_code\",\"content\":\"c\"\x7d" =
      .action { action := .insert_code, path := none, content := some "c" } :=
  ⟨(C2_pipeline_routing "plain text response").1 (by decide),
   (C2_pipeline_routing "\x7b\"action\":\"insert_code\",\"content\":\"c\"\x7d").2
     { action := .insert_code, path := none, content := some "c" } (by decide)⟩

/-- C5: evaluation of `unwrapCodeFence` at the claim's three concrete
examples.  The first two agree with the claim; the third is the failing
input: on `"```\ncode\n```"` the fenced body is `"\ncode\n"`, and the
language-tag regex `/^\s*[A-Za-z0-9_+#.\-]*\s*\n/` — whose `\s*` also
matches newlines — consumes the leading blank line, the whole
letters-only line `code`, and its newline, so the code returns `""` where
the claim (and the source's own comment, "remove the language name from
the first line") requires `"code"`. -/
theorem C5_unwrap_eval :
    unwrapCodeFence "```ts\ncode\n```" = "code" ∧
    unwrapCodeFence "  x  " = "x" ∧
    unwrapCodeFence "```\ncode\n```" = "" := by
  refine ⟨by decide, by decide, by decide⟩

/-- C6: `stripComments` on concrete inputs exercising every clause of the
claim: the claim's own blank-run example, an HTML comment span, a multi-line
block comment span, a full `//` line, a full `#` line, a preserved shebang
line, and trailing-whitespace stripping with blank-line dropping. -/
theorem C6_stripComments_examples :
    stripComments "a=1;\n\n\nb=2;\n\n" = "a=1;\nb=2;" ∧
    stripComments "keep1\n<!-- c -->\nkeep2" = "keep1\nkeep2" ∧
    stripComments "x\n/* c\nc2 */\ny" = "x\ny" ∧
    stripComments "a\n  // c\nb" = "a\nb" ∧
    stripComments "a\n# c\nb" = "a\nb" ∧
    stripComments "#!/bin/sh\n# c\necho hi" = "#!/bin/sh\necho hi" ∧
    stripComments "a   \nb" = "a\nb" := by
  refine ⟨by decide, by decide, by decide, by decide, by decide, by decide, by decide⟩

/-- C8: `append_file` semantics.  With no existing file the written content is
exactly the action's content; with existing content `E` the written content
is `E ++ content` when `E` is empty or already ends with `'\n'`, and
`E ++ "\n" ++ content` otherwise.  The last conjunct ties this to the
executor: for an in-sandbox append the final filesystem invocation is a write
of exactly that combination at the resolved target. -/
theorem C8_append_semantics (E c : String) :
    appendCombine none c = c ∧
    (E.data = [] ∨ E.data.getLast? = some '\n' → appendCombine (some E) c = E ++ c) ∧
    (E.data ≠ [] → E.data.getLast? ≠ some '\n' →
      appendCombine (some E) c = E ++ "\n" ++ c) ∧
    (∀ (root : List Char) (fs : List Char → Option (List Char)) (p : String),
      p.data ≠ [] →
      isPathWithinWorkspace
        (uriJoinPath root (pathSegments (sanitizeFilePathL p.data))) root = true →
      (handleFileOperation (some root) fs
          { action := .append_file, path := some p, content := some c }).2.getLast? =
        some (.write (uriJoinPath root (pathSegments (sanitizeFilePathL p.data)))
          (appendCombineL (fs (uriJoinPath root (pathSegments (sanitizeFilePathL p.data))))
            c.data))) := by
  refine ⟨?_, ?_, ?_, ?_⟩
  · simp [appendCombine, appendCombineL]
  · intro h
    have hn : ¬ (E.data ≠ [] ∧ E.data.getLast? ≠ some '\n') := by
      rcases h with h | h
      · intro hc; exact hc.1 h
      · intro hc; exact hc.2 h
    show String.mk (appendCombineL (some E.data) c.data) = E ++ c
    simp only [appendCombineL, Option.getD_some, if_neg hn, List.nil_append, List.append_nil]
    rfl
  · intro h1 h2
    obtain ⟨ed⟩ := E
    obtain ⟨cd⟩ := c
    show String.mk (appendCombineL (some ed) cd) = _
    simp only [appendCombineL, Option.getD_some]
    rw [if_pos (And.intro h1 h2)]
    rfl
  · intro root fs p hp hin
    simp only [handleFileOperation, if_neg hp, if_neg (not_not_intro hin)]
    simp [getLast?_append_single]

/-- Witness for `C8_append_semantics` at concrete contents and a concrete
in-sandbox append. -/
theorem C8_append_semantics_witness :
    appendCombine none "B" = "B" ∧
    appendCombine (some "A") "B" = "A" ++ "\n" ++ "B" ∧
    appendCombine (some "A\n") "B" = "A\n" ++ "B" ∧
    (handleFileOperation (some "/ws".data) (fun _ => some "A".data)
        { action := .append_file, path := some "n.txt", content := some "B" }).2.getLast? =
      some (.write (uriJoinPath "/ws".data (pathSegments (sanitizeFilePathL ("n.txt" : String).data)))
        (appendCombineL ((fun _ => some "A".data)
          (uriJoinPath "/ws".data (pathSegments (sanitizeFilePathL ("n.txt" : String).data))))
          "B".data)) :=
  ⟨(C8_append_semantics "A" "B").1,
   (C8_append_semantics "A" "B").2.2.1 (by decide) (by decide),
   (C8_append_semantics "A\n" "B").2.1 (by decide),
   (C8_append_semantics "A" "B").2.2.2 "/ws".data (fun _ => some "A".data) "n.txt"
     (by decide) (by decide)⟩

/-- C9: `insert_code` with an active editor.  If the content cleans (through
`unwrapCodeFence` then `stripComments`) to a non-empty string, the executor
inserts the same text at every cursor position, and that text is exactly the
cleaned string followed by one `'\n'`; the cleaned string itself never ends
in `'\n'` (it is trimmed), so the trailing newline is appended exactly once
and never doubled.  If the cleaned string is empty, the empty-content
outcome is reported and nothing is inserted. -/
theorem C9_insertion (ed : Editor) (content : Option String) :
    (stripCommentsL (unwrapCodeFenceL (content.getD "").data) = [] →
      handleCodeInsertion (some ed) content = (.emptyContent, [])) ∧
    (stripCommentsL (unwrapCodeFenceL (content.getD "").data) ≠ [] →
      handleCodeInsertion (some ed) content =
        (.inserted (stripCommentsL (unwrapCodeFenceL (content.getD "").data)).length,
          ed.selections.map (fun pos =>
            (pos, stripCommentsL (unwrapCodeFenceL (content.getD "").data) ++ ['\n']))) ∧
      (stripCommentsL (unwrapCodeFenceL (content.getD "").data)).getLast? ≠ some '\n') := by
  have hlast : (stripCommentsL (unwrapCodeFenceL (content.getD "").data)).getLast? ≠ some '\n' := by
    intro hEq
    have := stripCommentsL_getLast _ _ hEq
    simp [isJsWs] at this
  constructor
  · intro h
    simp [handleCodeInsertion, h]
  · intro h
    refine ⟨?_, hlast⟩
    simp [handleCodeInsertion, h, insertTextAtCursors, hlast]

/-- Witness for `C9_insertion`: a fenced snippet inserted at two cursors gets
exactly one trailing newline at each; a comment-only snippet cleans to empty
and inserts nothing. -/
theorem C9_insertion_witness :
    handleCodeInsertion (some ⟨[2, 5]⟩) (some "```ts\nlet a = 1;\n```") =
      (.inserted 10, [(2, "let a = 1;\n".data), (5, "let a = 1;\n".data)]) ∧
    handleCodeInsertion (some ⟨[2]⟩) (some "// only a comment") = (.emptyContent, []) := by
  constructor
  · have h := (C9_insertion ⟨[2, 5]⟩ (some "```ts\nlet a = 1;\n```")).2 (by decide)
    rw [h.1]
    decide
  · exact (C9_insertion ⟨[2]⟩ (some "// only a comment")).1 (by decide)

/-- C10: a non-empty path consisting solely of slashes and backslashes
sanitizes to the empty string and yields zero segments, so the target
resolves to the (normalized) sandbox root itself; for a root whose path does
not end in a separator the executor then refuses with the path-escape
outcome and performs no filesystem operation — the root directory itself is
never a writable target.  The hypothesis `posixNormalize root = root`
records that workspace root URIs carry already-normalized paths. -/
theorem C10_root_not_writable (root : List Char) (fs : List Char → Option (List Char))
    (k : ActionKind) (p : String) (c : Option String)
    (hr0 : root ≠ [])
    (hr1 : root.getLast? ≠ some '/')
    (hnorm : posixNormalize root = root)
    (hp0 : p.data ≠ [])
    (hp1 : ∀ ch ∈ p.data, isSlashy ch = true) :
    pathSegments (sanitizeFilePathL p.data) = [] ∧
    uriJoinPath root (pathSegments (sanitizeFilePathL p.data)) = root ∧
    handleFileOperation (some root) fs { action := k, path := some p, content := c } =
      (FileOutcome.pathEscape, []) := by
  have hsan : sanitizeFilePathL p.data = [] := by
    unfold sanitizeFilePathL
    rw [List.dropWhile_eq_nil_iff]
    exact hp1
  have hsegs : pathSegments (sanitizeFilePathL p.data) = [] := by
    rw [hsan]
    rfl
  have htarget : uriJoinPath root (pathSegments (sanitizeFilePathL p.data)) = root := by
    rw [hsegs]
    unfold uriJoinPath posixJoin
    rw [List.filter_cons]
    simp only [List.filter_nil, decide_eq_true_eq, hr0, if_pos (by exact hr0 : root ≠ [])]
    show posixNormalize (joinSlash [root]) = root
    rw [show joinSlash [root] = root from rfl]
    exact hnorm
  have hguard : isPathWithinWorkspace root root = false := by
    simp only [isPathWithinWorkspace, if_neg hr1]
    cases h : leadsWith (root ++ ['/']) root
    · rfl
    · have := leadsWith_length _ _ h
      simp only [List.length_append, List.length_cons, List.length_nil] at this
      omega
  refine ⟨hsegs, htarget, ?_⟩
  simp only [handleFileOperation, if_neg hp0]
  rw [htarget, hguard]
  simp

/-- Witness for `C10_root_not_writable`: the all-separator path `///\` against
root `/ws` is refused with an empty trace. -/
theorem C10_root_not_writable_witness :
    handleFileOperation (some "/ws".data) (fun _ => none)
      { action := .create_file, path := some "///\\", content := some "x" } =
      (FileOutcome.pathEscape, []) :=
  (C10_root_not_writable "/ws".data (fun _ => none) .create_file "///\\" (some "x")
    (by decide) (by decide) (by decide) (by decide) (by decide)).2.2

/-- C3: totality and shape of `parseModelAction`.  It never raises — it is a
total function returning `none` on empty (trimmed) input, on a missing first
`\x7b` or last `\x7d`, when the last `\x7d` is not strictly after the first
`\x7b`, on JSON parse failure of the brace slice, on an absent or non-string
`action` field and on an out-of-vocabulary `action` value; and on success it
returns an action whose kind is in the closed three-element vocabulary and
whose `path` / `content` fields are present exactly when the parsed object
carries them as strings, copied verbatim (`jgetStr`). -/
theorem C3_parser_total_shape (s : String) :
    (trimL s.data = [] → parseModelAction s = none) ∧
    (firstSub [Char.ofNat 0x7B] (trimL s.data) = none → parseModelAction s = none) ∧
    (lastSub [Char.ofNat 0x7D] (trimL s.data) = none → parseModelAction s = none) ∧
    (∀ i j, firstSub [Char.ofNat 0x7B] (trimL s.data) = some i →
      lastSub [Char.ofNat 0x7D] (trimL s.data) = some j → j ≤ i →
      parseModelAction s = none) ∧
    (∀ i j, firstSub [Char.ofNat 0x7B] (trimL s.data) = some i →
      lastSub [Char.ofNat 0x7D] (trimL s.data) = some j → i < j →
      jsonParse (((trimL s.data).drop i).take (j + 1 - i)) = none →
      parseModelAction s = none) ∧
    (∀ i j v, firstSub [Char.ofNat 0x7B] (trimL s.data) = some i →
      lastSub [Char.ofNat 0x7D] (trimL s.data) = some j → i < j →
      jsonParse (((trimL s.data).drop i).take (j + 1 - i)) = some v →
      parseModelAction s = buildAction v) ∧
    (∀ v, jget v "action".data = none → buildAction v = none) ∧
    (∀ v x, jget v "action".data = some x → (∀ y, x ≠ JVal.jstr y) → buildAction v = none) ∧
    (∀ v y, jget v "action".data = some (.jstr y) → kindOf y = none → buildAction v = none) ∧
    (∀ v a, buildAction v = some a →
      (a.action = .create_file ∨ a.action = .append_file ∨ a.action = .insert_code) ∧
      a.path = jgetStr v "path".data ∧ a.content = jgetStr v "content".data) := by
  have hne : ∀ i, firstSub [Char.ofNat 0x7B] (trimL s.data) = some i → trimL s.data ≠ [] := by
    intro i hfi h0
    rw [h0] at hfi
    simp [firstSub, leadsWith] at hfi
  refine ⟨?_, ?_, ?_, ?_, ?_, ?_, ?_, ?_, ?_, ?_⟩
  · intro h
    simp [parseModelAction, parseModelActionL, h]
  · intro h
    by_cases ht : trimL s.data = []
    · simp [parseModelAction, parseModelActionL, ht]
    · simp only [parseModelAction, parseModelActionL, if_neg ht, h]
  · intro h
    by_cases ht : trimL s.data = []
    · simp [parseModelAction, parseModelActionL, ht]
    · simp only [parseModelAction, parseModelActionL, if_neg ht, h]
      split <;> simp_all
  · intro i j hfi hlj hji
    simp only [parseModelAction, parseModelActionL, if_neg (hne i hfi), hfi, hlj]
    rw [if_pos hji]
  · intro i j hfi hlj hij hjp
    simp only [parseModelAction, parseModelActionL, if_neg (hne i hfi), hfi, hlj, hjp]
    rw [if_neg (by omega : ¬ j ≤ i)]
  · intro i j v hfi hlj hij hjp
    simp only [parseModelAction, parseModelActionL, if_neg (hne i hfi), hfi, hlj, hjp]
    rw [if_neg (by omega : ¬ j ≤ i)]
  · intro v h
    simp [buildAction, h]
  · intro v x h hx
    cases x with
    | jstr y => exact absurd rfl (hx y)
    | jnull => simp [buildAction, h]
    | jbool b => simp [buildAction, h]
    | jnum l => simp [buildAction, h]
    | jarr xs => simp [buildAction, h]
    | jobj f => simp [buildAction, h]
  · intro v y h hk
    simp [buildAction, h, hk]
  · intro v a h
    unfold buildAction at h
    split at h
    · next y hy =>
      cases hk : kindOf y with
      | none => rw [hk] at h; exact absurd h (by simp)
      | some k =>
        rw [hk] at h
        simp only [Option.some.injEq] at h
        subst h
        refine ⟨?_, rfl, rfl⟩
        cases k <;> simp
    · exact absurd h (by simp)

/-- Witness for `C3_parser_total_shape`: each refusal clause and the success
shape at concrete inputs. -/
theorem C3_parser_total_shape_witness :
    parseModelAction "" = none ∧
    parseModelAction "no braces at all" = none ∧
    parseModelAction "\x7bunclosed" = none ∧
    parseModelAction "\x7d close before open \x7b" = none ∧
    parseModelAction "\x7bnot json\x7d" = none ∧
    parseModelAction "\x7b\"action\":\"delete_file\"\x7d" = none ∧
    parseModelAction "\x7b\"action\":\"create_file\",\"path\":\"p\"\x7d" =
      some { action := .create_file, path := some "p", content := none } := by
  refine ⟨?_, ?_, ?_, ?_, ?_, ?_, ?_⟩
  · exact (C3_parser_total_shape "").1 (by decide)
  · exact (C3_parser_total_shape "no braces at all").2.1 (by decide)
  · exact (C3_parser_total_shape "\x7bunclosed").2.2.1 (by decide)
  · exact (C3_parser_total_shape "\x7d close before open \x7b").2.2.2.1 20 0
      (by decide) (by decide) (by decide)
  · exact (C3_parser_total_shape "\x7bnot json\x7d").2.2.2.2.1 0 9
      (by decide) (by decide) (by decide) (by rfl)
  · rw [(C3_parser_total_shape "\x7b\"action\":\"delete_file\"\x7d").2.2.2.2.2.1 0 23
      (JVal.jobj [("action".data, JVal.jstr "delete_file".data)])
      (by decide) (by decide) (by decide) (by rfl)]
    decide
  · rw [(C3_parser_total_shape "\x7b\"action\":\"create_file\",\"path\":\"p\"\x7d").2.2.2.2.2.1 0 34
      (JVal.jobj [("action".data, JVal.jstr "create_file".data), ("path".data, JVal.jstr "p".data)])
      (by decide) (by decide) (by decide) (by rfl)]
    decide

/-- Helper: `dropWhile` distributes over an append whose right part starts
with a character failing the predicate (or is empty). -/
theorem dropWhile_ws_append (x y : List Char)
    (hy : ∀ c, y.head? = some c → isJsWs c = false) :
    (x ++ y).dropWhile isJsWs = x.dropWhile isJsWs ++ y := by
  induction x with
  | nil =>
    cases y with
    | nil => rfl
    | cons c ys =>
      simp only [List.nil_append, List.dropWhile_nil]
      rw [List.dropWhile_cons_of_neg]
      simpa using hy c rfl
  | cons a xs ih =>
    by_cases ha : isJsWs a
    · rw [List.cons_append, List.dropWhile_cons_of_pos ha, List.dropWhile_cons_of_pos ha, ih]
    · rw [List.cons_append, List.dropWhile_cons_of_neg (by simpa using ha),
        List.dropWhile_cons_of_neg (by simpa using ha), List.cons_append]

/-- Helper: `rstrip` distributes over an append whose left part ends with a
non-whitespace character. -/
theorem rstrip_append (a b : List Char)
    (ha : ∀ c, a.getLast? = some c → isJsWs c = false) :
    rstrip (a ++ b) = a ++ rstrip b := by
  unfold rstrip
  rw [List.reverse_append, dropWhile_ws_append _ _ (by
    intro c hc
    rw [List.head?_reverse] at hc
    exact ha c hc)]
  rw [List.reverse_append, List.reverse_reverse]

/-- Helper: index of the first occurrence of a character after a prefix free
of it. -/
theorem firstSub_single (c : Char) :
    ∀ (A B : List Char), (∀ x ∈ A, x ≠ c) →
      firstSub [c] (A ++ c :: B) = some A.length := by
  intro A
  induction A with
  | nil =>
    intro B _
    simp [firstSub, leadsWith]
  | cons a as ih =>
    intro B h
    have hac : ¬ (c = a) := fun hh => h a (by simp) hh.symm
    have hihyp := ih B (fun x hx => h x (List.mem_cons_of_mem a hx))
    simp [firstSub, leadsWith, hac, hihyp]

/-- Helper: a character absent from a list has no last occurrence in it. -/
theorem lastSub_single_none (c : Char) :
    ∀ (B : List Char), (∀ x ∈ B, x ≠ c) → lastSub [c] B = none := by
  intro B
  induction B with
  | nil => simp [lastSub, leadsWith]
  | cons b bs ih =>
    intro h
    have hbc : ¬ (c = b) := fun hh => h b (by simp) hh.symm
    simp [lastSub, ih (fun x hx => h x (List.mem_cons_of_mem b hx)), leadsWith, hbc]

/-- Helper: index of the last occurrence of a character followed by a suffix
free of it. -/
theorem lastSub_single (c : Char) :
    ∀ (A B : List Char), (∀ x ∈ B, x ≠ c) →
      lastSub [c] (A ++ c :: B) = some A.length := by
  intro A
  induction A with
  | nil =>
    intro B h
    simp [lastSub, lastSub_single_none c B h, leadsWith]
  | cons a as ih =>
    intro B h
    simp [lastSub, ih B h]

/-- C4 (amended): prose tolerance of the parser.  For prose `p` and `s`
containing no brace characters, and a JSON action text `j` that begins with
`\x7b`, ends with `\x7d`, parses to `v` and validates to action `a`, the
parser run on `p ++ j ++ s` returns exactly `a` — the embedded object may
sit anywhere inside the blob.  (The claim's quantification over all
surrounding strings is refuted by `C4_cex`: a brace inside the prose changes
the first-`\x7b`/last-`\x7d` slice and the parse fails.) -/
theorem C4_prose_tolerance (p s j : List Char) (v : JVal) (a : ModelAction)
    (hp : ∀ ch ∈ p, ch ≠ Char.ofNat 0x7B ∧ ch ≠ Char.ofNat 0x7D)
    (hs : ∀ ch ∈ s, ch ≠ Char.ofNat 0x7B ∧ ch ≠ Char.ofNat 0x7D)
    (hj1 : j.head? = some (Char.ofNat 0x7B))
    (hj2 : j.getLast? = some (Char.ofNat 0x7D))
    (hparse : jsonParse j = some v)
    (hact : buildAction v = some a) :
    parseModelActionL (p ++ j ++ s) = some a := by
  obtain ⟨j1, rfl⟩ : ∃ j1, j = Char.ofNat 0x7B :: j1 := by
    cases j with
    | nil => simp at hj1
    | cons c cs =>
      simp only [List.head?_cons, Option.some.injEq] at hj1
      exact ⟨cs, by rw [hj1]⟩
  have hj1ne : j1 ≠ [] := by
    intro h
    subst h
    simp only [List.getLast?_singleton, Option.some.injEq] at hj2
    exact absurd hj2 (by decide)
  set J := Char.ofNat 0x7B :: j1 with hJ
  have hJne : J ≠ [] := by simp [hJ]
  have hjdec : J.dropLast ++ [Char.ofNat 0x7D] = J :=
    List.dropLast_append_getLast? _ hj2
  -- the trim leaves the brace block intact
  have hlt : ltrim ((p ++ J) ++ s) = ltrim p ++ (J ++ s) := by
    have hre : (p ++ J) ++ s = p ++ (J ++ s) := by rw [List.append_assoc]
    rw [hre]
    exact dropWhile_ws_append p (J ++ s) (by
      intro c hc
      rw [hJ] at hc
      simp only [List.cons_append, List.head?_cons, Option.some.injEq] at hc
      subst hc
      decide)
  have hT : trimL ((p ++ J) ++ s) = (ltrim p ++ J) ++ rstrip s := by
    unfold trimL
    rw [hlt, ← List.append_assoc]
    exact rstrip_append _ _ (by
      intro c hc
      rw [List.getLast?_append_of_ne_nil _ hJne, hj2] at hc
      simp only [Option.some.injEq] at hc
      subst hc
      decide)
  have hp2 : ∀ x ∈ ltrim p, x ≠ Char.ofNat 0x7B ∧ x ≠ Char.ofNat 0x7D := by
    intro x hx
    exact hp x ((List.dropWhile_sublist _).mem hx)
  have hs2 : ∀ x ∈ rstrip s, x ≠ Char.ofNat 0x7B ∧ x ≠ Char.ofNat 0x7D := by
    intro x hx
    refine hs x ?_
    unfold rstrip at hx
    rw [List.mem_reverse] at hx
    have := (List.dropWhile_sublist (l := s.reverse) (p := isJsWs)).mem hx
    rwa [List.mem_reverse] at this
  have hfirst : firstSub [Char.ofNat 0x7B] ((ltrim p ++ J) ++ rstrip s) =
      some (ltrim p).length := by
    have hshape : (ltrim p ++ J) ++ rstrip s =
        ltrim p ++ Char.ofNat 0x7B :: (j1 ++ rstrip s) := by
      rw [hJ]
      simp only [List.append_assoc, List.cons_append]
    rw [hshape]
    exact firstSub_single _ _ _ (fun x hx => (hp2 x hx).1)
  have hlast : lastSub [Char.ofNat 0x7D] ((ltrim p ++ J) ++ rstrip s) =
      some ((ltrim p).length + J.dropLast.length) := by
    have hshape : (ltrim p ++ J) ++ rstrip s =
        (ltrim p ++ J.dropLast) ++ Char.ofNat 0x7D :: rstrip s := by
      conv_lhs => rw [← hjdec]
      simp only [List.append_assoc, List.singleton_append, List.cons_append, List.nil_append]
    rw [hshape]
    have := lastSub_single (Char.ofNat 0x7D) (ltrim p ++ J.dropLast) (rstrip s)
      (fun x hx => (hs2 x hx).2)
    rwa [List.length_append] at this
  have hJlen : J.dropLast.length + 1 = J.length := by
    have := congrArg List.length hjdec
    simp only [List.length_append, List.length_cons, List.length_nil] at this
    omega
  have hJlen2 : 2 ≤ J.length := by
    rw [hJ]
    simp only [List.length_cons]
    have := List.length_pos.mpr hj1ne
    omega
  have hslice : (((ltrim p ++ J) ++ rstrip s).drop (ltrim p).length).take
      ((ltrim p).length + J.dropLast.length + 1 - (ltrim p).length) = J := by
    have h1 : (ltrim p ++ (J ++ rstrip s)).drop (ltrim p).length = J ++ rstrip s :=
      List.drop_left _ _
    rw [List.append_assoc, h1]
    have h2 : (ltrim p).length + J.dropLast.length + 1 - (ltrim p).length = J.length := by
      omega
    rw [h2]
    exact List.take_left _ _
  have hTne : (ltrim p ++ J) ++ rstrip s ≠ [] := by
    intro h0
    have := congrArg List.length h0
    have hJpos : 0 < J.length := List.length_pos.mpr hJne
    simp only [List.length_append, List.length_nil] at this
    omega
  simp only [parseModelActionL, hT, hfirst, hlast, if_neg hTne]
  rw [if_neg (by omega : ¬ (ltrim p).length + J.dropLast.length ≤ (ltrim p).length)]
  rw [hslice, hparse]
  simpa using hact

/-- Counterexample to C4 as stated: with prose `p = "\x7b"` (a single open
brace) before the same valid action object, the first-`\x7b`-to-last-`\x7d`
slice is `\x7b` plus the object, `JSON.parse` fails, and the parser returns
`none` instead of the claimed action. -/
theorem C4_cex :
    parseModelAction
      ("\x7b" ++ "\x7b\"action\":\"create_file\",\"path\":\"src/new.ts\",\"content\":\"x\"\x7d") =
      none := by
  decide

/-- Witness for `C4_prose_tolerance`: the claim's own example with prose on
both sides yields the `create_file` action with path `src/new.ts` and
content `x`. -/
theorem C4_prose_tolerance_witness :
    parseModelActionL ("noise ".data ++
      "\x7b\"action\":\"create_file\",\"path\":\"src/new.ts\",\"content\":\"x\"\x7d".data ++
      " noise".data) =
      some { action := .create_file, path := some "src/new.ts", content := some "x" } :=
  C4_prose_tolerance "noise ".data " noise".data
    "\x7b\"action\":\"create_file\",\"path\":\"src/new.ts\",\"content\":\"x\"\x7d".data
    (JVal.jobj [("action".data, JVal.jstr "create_file".data),
      ("path".data, JVal.jstr "src/new.ts".data),
      ("content".data, JVal.jstr "x".data)])
    { action := .create_file, path := some "src/new.ts", content := some "x" }
    (by decide) (by decide) (by rfl) (by rfl) (by rfl) (by rfl)

/-! Development for C7: idempotence of `stripComments` on inputs free of the
characters that can open a comment construct. -/

/-- Helper: a pattern headed by a character absent from the list never
occurs. -/
theorem splitFirst_none_of_not_mem (c : Char) (pat : List Char) (hc : pat.head? = some c) :
    ∀ (s : List Char), (∀ x ∈ s, x ≠ c) → splitFirst pat s = none := by
  obtain ⟨pat', rfl⟩ : ∃ pat', pat = c :: pat' := by
    cases pat with
    | nil => simp at hc
    | cons a as =>
      simp only [List.head?_cons, Option.some.injEq] at hc
      exact ⟨as, by rw [hc]⟩
  intro s
  induction s with
  | nil => intro _; simp [splitFirst, leadsWith]
  | cons a as ih =>
    intro h
    have hca : ¬ (c = a) := fun hh => h a (by simp) hh.symm
    simp [splitFirst, leadsWith, hca, ih (fun x hx => h x (List.mem_cons_of_mem a hx))]

/-- Helper: span removal is the identity when the opening marker never
occurs. -/
theorem removeSpans_id (opn cls s : List Char) (h : splitFirst opn s = none) :
    removeSpans opn cls s = s := by
  unfold removeSpans
  cases hn : s.length with
  | zero => rfl
  | succ n =>
    simp [removeSpansF, h]

/-- Helper: without a `'/'` character the `//`-line matcher never fires. -/
theorem slashMatch_none (t : List Char) (h : ∀ x ∈ t, x ≠ '/') : slashMatch t = none := by
  unfold slashMatch
  cases hd : t.drop (wsCount t) with
  | nil => simp [leadsWith]
  | cons y ys =>
    have hy : y ∈ t := by
      have : y ∈ t.drop (wsCount t) := by rw [hd]; simp
      exact (List.drop_sublist _ _).mem this
    have hne : ¬ ('/' = y) := fun hh => h y hy hh.symm
    simp [leadsWith, hne]

/-- Helper: without a `'#'` character the `#`-line matcher never fires. -/
theorem hashMatch_none (t : List Char) (h : ∀ x ∈ t, x ≠ '#') : hashMatch t = none := by
  unfold hashMatch
  cases hd : t.drop (wsCount t) with
  | nil => rfl
  | cons y ys =>
    have hy : y ∈ t := by
      have : y ∈ t.drop (wsCount t) := by rw [hd]; simp
      exact (List.drop_sublist _ _).mem this
    simp [h y hy]

/-- Helper: `remLinesF` is the identity when the matcher never fires on any
suffix (given enough fuel). -/
theorem remLinesF_id (m : List Char → Option Nat) (Q : Char → Prop)
    (hm : ∀ t : List Char, (∀ x ∈ t, Q x) → m t = none) :
    ∀ (fuel : Nat) (s : List Char), s.length ≤ fuel → (∀ x ∈ s, Q x) →
      remLinesF m fuel s = s := by
  intro fuel
  induction fuel with
  | zero => intro s _ _; rfl
  | succ n ih =>
    intro s hlen hQ
    cases s with
    | nil => rfl
    | cons c cs =>
      have hnone := hm (c :: cs) hQ
      simp only [remLinesF, hnone]
      cases hd : (c :: cs).drop (lineRun (c :: cs)) with
      | nil => rfl
      | cons t r =>
        have hr : remLinesF m n r = r := by
          refine ih r ?_ ?_
          · have := congrArg List.length hd
            simp only [List.length_drop, List.length_cons] at this
            simp only [List.length_cons] at hlen
            omega
          · intro x hx
            refine hQ x ?_
            have : x ∈ (c :: cs).drop (lineRun (c :: cs)) := by
              rw [hd]; exact List.mem_cons_of_mem t hx
            exact (List.drop_sublist _ _).mem this
        dsimp only
        rw [hr]
        have htad := List.take_append_drop (lineRun (c :: cs)) (c :: cs)
        rw [hd] at htad
        exact htad

/-- Helper: `remLines` with the `//` matcher is the identity on slash-free
input. -/
theorem remLines_slash_id (s : List Char) (h : ∀ x ∈ s, x ≠ '/') :
    remLines slashMatch s = s :=
  remLinesF_id slashMatch (· ≠ '/') (fun t ht => slashMatch_none t ht) s.length s le_rfl h

/-- Helper: `remLines` with the `#` matcher is the identity on hash-free
input. -/
theorem remLines_hash_id (s : List Char) (h : ∀ x ∈ s, x ≠ '#') :
    remLines hashMatch s = s :=
  remLinesF_id hashMatch (· ≠ '#') (fun t ht => hashMatch_none t ht) s.length s le_rfl h

/-- Helper: on input free of `'<'`, `'/'` and `'#'`, all four removal passes
of `stripComments` are the identity, leaving only the post-processing. -/
theorem stripCommentsL_eq_postProcess (s : List Char)
    (h1 : ∀ x ∈ s, x ≠ '<') (h2 : ∀ x ∈ s, x ≠ '/') (h3 : ∀ x ∈ s, x ≠ '#')
    (hs : s ≠ []) :
    stripCommentsL s = postProcess s := by
  unfold stripCommentsL
  rw [if_neg hs]
  rw [removeSpans_id _ _ _ (splitFirst_none_of_not_mem '<' htmlOpen rfl s h1)]
  rw [removeSpans_id _ _ _ (splitFirst_none_of_not_mem '/' blockOpen rfl s h2)]
  rw [remLines_slash_id s h2, remLines_hash_id s h3]

/-- Helper: characters of `rstrip l` come from `l`. -/
theorem mem_rstrip {x : Char} {l : List Char} (h : x ∈ rstrip l) : x ∈ l := by
  unfold rstrip at h
  rw [List.mem_reverse] at h
  have := (List.dropWhile_sublist (p := isJsWs) (l := l.reverse)).mem h
  rwa [List.mem_reverse] at this

/-- Helper: characters of `ltrim l` come from `l`. -/
theorem mem_ltrim {x : Char} {l : List Char} (h : x ∈ ltrim l) : x ∈ l :=
  (List.dropWhile_sublist (p := isJsWs) (l := l)).mem h

/-- Helper: characters of `trimL l` come from `l`. -/
theorem mem_trimL {x : Char} {l : List Char} (h : x ∈ trimL l) : x ∈ l :=
  mem_ltrim (mem_rstrip h)

/-- Helper: characters of the rejoined lines come from the lines or are the
`'\n'` separator. -/
theorem mem_joinNl : ∀ (L : List (List Char)) (c : Char),
    c ∈ joinNl L → (∃ l ∈ L, c ∈ l) ∨ c = '\n' := by
  intro L
  induction L with
  | nil => intro c hc; simp [joinNl] at hc
  | cons l ls ih =>
    intro c hc
    cases ls with
    | nil =>
      refine Or.inl ⟨l, by simp, ?_⟩
      simpa [joinNl] using hc
    | cons l2 ls2 =>
      simp only [joinNl] at hc
      rcases List.mem_append.mp hc with h | h
      · exact Or.inl ⟨l, by simp, h⟩
      · rcases List.mem_cons.mp h with h | h
        · exact Or.inr h
        · rcases ih c h with ⟨l', hl', hc'⟩ | h'
          · exact Or.inl ⟨l', List.mem_cons_of_mem _ hl', hc'⟩
          · exact Or.inr h'

/-- Helper: characters of any `splitLinesF` piece come from the input. -/
theorem mem_splitLinesF : ∀ (fuel : Nat) (s piece : List Char) (c : Char),
    piece ∈ splitLinesF fuel s → c ∈ piece → c ∈ s := by
  intro fuel
  induction fuel with
  | zero =>
    intro s piece c hp hc
    simp only [splitLinesF, List.mem_singleton] at hp
    subst hp
    exact hc
  | succ n ih =>
    intro s piece c hp hc
    cases s with
    | nil =>
      simp only [splitLinesF, List.mem_singleton] at hp
      subst hp
      simp at hc
    | cons a rest =>
      simp only [splitLinesF] at hp
      by_cases h1 : a = '\n'
      · rw [if_pos h1] at hp
        rcases List.mem_cons.mp hp with h | h
        · subst h; simp at hc
        · exact List.mem_cons_of_mem a (ih rest piece c h hc)
      · rw [if_neg h1] at hp
        by_cases h2 : a = '\r' ∧ rest.head? = some '\n'
        · rw [if_pos h2] at hp
          rcases List.mem_cons.mp hp with h | h
          · subst h; simp at hc
          · have hmem := ih rest.tail piece c h hc
            exact List.mem_cons_of_mem a (List.mem_of_mem_tail hmem)
        · rw [if_neg h2] at hp
          cases hsp : splitLinesF n rest with
          | nil =>
            rw [hsp] at hp
            simp only [consHead, List.mem_singleton] at hp
            subst hp
            rcases List.mem_cons.mp hc with h' | h'
            · subst h'; exact List.mem_cons_self _ _
            · simp at h'
          | cons l ls =>
            rw [hsp] at hp
            simp only [consHead] at hp
            rcases List.mem_cons.mp hp with h | h
            · subst h
              rcases List.mem_cons.mp hc with h' | h'
              · subst h'; exact List.mem_cons_self _ _
              · have hmem : c ∈ rest :=
                  ih rest l c (by rw [hsp]; exact List.mem_cons_self _ _) h'
                exact List.mem_cons_of_mem a hmem
            · have hmem : c ∈ rest :=
                ih rest piece c (by rw [hsp]; exact List.mem_cons_of_mem _ h) hc
              exact List.mem_cons_of_mem a hmem

/-- Helper: every character of `postProcess s` comes from `s` or is the
`'\n'` separator. -/
theorem mem_postProcess (s : List Char) (c : Char) (h : c ∈ postProcess s) :
    c ∈ s ∨ c = '\n' := by
  unfold postProcess at h
  have h1 := mem_trimL h
  rcases mem_joinNl _ c h1 with ⟨l, hl, hc⟩ | h2
  · have hl2 := List.mem_of_mem_filter hl
    rcases List.mem_map.mp hl2 with ⟨piece, hpiece, rfl⟩
    exact Or.inl (mem_splitLinesF _ _ piece c hpiece (mem_rstrip hc))
  · exact Or.inr h2

/-- Helper: with sufficient fuel, no `splitLinesF` piece contains `'\n'`. -/
theorem splitLinesF_no_nl : ∀ (fuel : Nat) (s piece : List Char),
    s.length ≤ fuel → piece ∈ splitLinesF fuel s → '\n' ∉ piece := by
  intro fuel
  induction fuel with
  | zero =>
    intro s piece hlen hp
    have hs : s = [] := List.length_eq_zero.mp (Nat.le_zero.mp hlen)
    subst hs
    simp only [splitLinesF, List.mem_singleton] at hp
    subst hp
    simp
  | succ n ih =>
    intro s piece hlen hp
    cases s with
    | nil =>
      simp only [splitLinesF, List.mem_singleton] at hp
      subst hp
      simp
    | cons a rest =>
      simp only [splitLinesF] at hp
      simp only [List.length_cons] at hlen
      by_cases h1 : a = '\n'
      · rw [if_pos h1] at hp
        rcases List.mem_cons.mp hp with h | h
        · subst h; simp
        · exact ih rest piece (by omega) h
      · rw [if_neg h1] at hp
        by_cases h2 : a = '\r' ∧ rest.head? = some '\n'
        · rw [if_pos h2] at hp
          rcases List.mem_cons.mp hp with h | h
          · subst h; simp
          · refine ih rest.tail piece ?_ h
            have := List.length_tail rest
            omega
        · rw [if_neg h2] at hp
          cases hsp : splitLinesF n rest with
          | nil =>
            rw [hsp] at hp
            simp only [consHead, List.mem_singleton] at hp
            subst hp
            intro hmem
            rcases List.mem_cons.mp hmem with h' | h'
            · exact h1 h'.symm
            · simp at h'
          | cons l ls =>
            rw [hsp] at hp
            simp only [consHead] at hp
            rcases List.mem_cons.mp hp with h | h
            · subst h
              intro hmem
              rcases List.mem_cons.mp hmem with h' | h'
              · exact h1 h'.symm
              · exact ih rest l (by omega) (by rw [hsp]; exact List.mem_cons_self _ _) h'
            · exact ih rest piece (by omega) (by rw [hsp]; exact List.mem_cons_of_mem _ h)

/-- Helper: a newline-free list splits into a single piece. -/
theorem splitLinesF_single : ∀ (fuel : Nat) (l : List Char),
    l.length ≤ fuel → '\n' ∉ l → splitLinesF fuel l = [l] := by
  intro fuel
  induction fuel with
  | zero =>
    intro l hlen _
    have : l = [] := List.length_eq_zero.mp (Nat.le_zero.mp hlen)
    subst this
    rfl
  | succ n ih =>
    intro l hlen hnl
    cases l with
    | nil => rfl
    | cons a rest =>
      have h1 : ¬ (a = '\n') := fun h => hnl (by rw [h]; exact List.mem_cons_self _ _)
      have h2 : ¬ (a = '\r' ∧ rest.head? = some '\n') := by
        rintro ⟨_, hh⟩
        have : '\n' ∈ rest := by
          cases rest with
          | nil => simp at hh
          | cons b bs =>
            simp only [List.head?_cons, Option.some.injEq] at hh
            rw [← hh]
            exact List.mem_cons_self _ _
        exact hnl (List.mem_cons_of_mem a this)
      simp only [splitLinesF, if_neg h1, if_neg h2]
      rw [ih rest (by simp only [List.length_cons] at hlen; omega)
        (fun hh => hnl (List.mem_cons_of_mem a hh))]
      rfl

/-- Helper: `splitLinesF` peels one line off a join at its first explicit
separator, when that line contains no newline and does not end in CR. -/
theorem splitLinesF_append_nl : ∀ (l : List Char) (fuel : Nat) (rest : List Char),
    l.length + 1 + rest.length ≤ fuel → '\n' ∉ l → l.getLast? ≠ some '\r' →
    splitLinesF fuel (l ++ '\n' :: rest) = l :: splitLinesF (fuel - (l.length + 1)) rest := by
  intro l
  induction l with
  | nil =>
    intro fuel rest hlen _ _
    cases fuel with
    | zero => omega
    | succ n =>
      show splitLinesF (n + 1) ('\n' :: rest) =
        [] :: splitLinesF (n + 1 - (List.length ([] : List Char) + 1)) rest
      have hfu : n + 1 - (List.length ([] : List Char) + 1) = n := by simp
      rw [hfu]
      simp [splitLinesF]
  | cons a l' ih =>
    intro fuel rest hlen hnl hlast
    cases fuel with
    | zero => simp only [List.length_cons] at hlen; omega
    | succ n =>
      have h1 : ¬ (a = '\n') := fun h => hnl (by rw [h]; exact List.mem_cons_self _ _)
      have h2 : ¬ (a = '\r' ∧ (l' ++ '\n' :: rest).head? = some '\n') := by
        rintro ⟨ha, hh⟩
        cases l' with
        | nil =>
          apply hlast
          rw [ha]
          rfl
        | cons b bs =>
          simp only [List.cons_append, List.head?_cons, Option.some.injEq] at hh
          exact hnl (List.mem_cons_of_mem a (by rw [← hh]; exact List.mem_cons_self _ _))
      show splitLinesF (n + 1) ((a :: l') ++ '\n' :: rest) = _
      simp only [List.cons_append, splitLinesF, if_neg h1, if_neg h2, List.append_eq]
      rw [ih n rest (by simp only [List.length_cons] at hlen; omega)
        (fun hh => hnl (List.mem_cons_of_mem a hh))
        (by
          cases l' with
          | nil => simp
          | cons b bs =>
            intro hh
            exact hlast (by rw [List.getLast?_cons_cons]; exact hh))]
      have hfuel : n - (l'.length + 1) = (n + 1) - ((a :: l').length + 1) := by
        simp only [List.length_cons]
        omega
      simp only [consHead, hfuel]

/-- Helper: `joinNl` of a cons with a nonempty head is nonempty. -/
theorem joinNl_cons_ne_nil (m : List Char) (M : List (List Char)) (hm : m ≠ []) :
    joinNl (m :: M) ≠ [] := by
  cases M with
  | nil => exact hm
  | cons m1 Ms =>
    show m ++ '\n' :: joinNl (m1 :: Ms) ≠ []
    simp

/-- Helper: `splitLines` recovers the lines of a join whose lines contain no
newline and do not end in a carriage return. -/
theorem splitLines_joinNl : ∀ (L : List (List Char)),
    (∀ l ∈ L, '\n' ∉ l ∧ l.getLast? ≠ some '\r') → L ≠ [] →
    splitLines (joinNl L) = L := by
  intro L
  induction L with
  | nil => intro _ h; exact absurd rfl h
  | cons m0 M ih =>
    intro hc _
    cases M with
    | nil =>
      show splitLines (joinNl [m0]) = [m0]
      have hj : joinNl [m0] = m0 := rfl
      rw [hj]
      exact splitLinesF_single m0.length m0 le_rfl (hc m0 (by simp)).1
    | cons m1 Ms =>
      have hj : joinNl (m0 :: m1 :: Ms) = m0 ++ '\n' :: joinNl (m1 :: Ms) := rfl
      rw [hj]
      show splitLinesF (m0 ++ '\n' :: joinNl (m1 :: Ms)).length (m0 ++ '\n' :: joinNl (m1 :: Ms)) = _
      rw [splitLinesF_append_nl m0 _ _
        (by simp only [List.length_append, List.length_cons]; omega)
        (hc m0 (by simp)).1 (hc m0 (by simp)).2]
      have hfu : (m0 ++ '\n' :: joinNl (m1 :: Ms)).length - (m0.length + 1) =
          (joinNl (m1 :: Ms)).length := by
        simp only [List.length_append, List.length_cons]
        omega
      rw [hfu]
      show m0 :: splitLines (joinNl (m1 :: Ms)) = m0 :: m1 :: Ms
      rw [ih (fun l hl => hc l (List.mem_cons_of_mem _ hl)) (by simp)]

/-- Helper: `rstrip` fixes a list whose last character is not whitespace. -/
theorem rstrip_eq_self (z : List Char) (h : ∀ c, z.getLast? = some c → isJsWs c = false) :
    rstrip z = z := by
  unfold rstrip
  cases hz : z.reverse with
  | nil =>
    rw [List.reverse_eq_nil_iff] at hz
    subst hz
    rfl
  | cons c cs =>
    have hc : z.getLast? = some c := by
      rw [← List.head?_reverse, hz]
      rfl
    rw [List.dropWhile_cons_of_neg (by simp [h c hc]), ← hz, List.reverse_reverse]

/-- Helper: `ltrim` fixes a list whose first character is not whitespace. -/
theorem ltrim_eq_self (z : List Char) (h : ∀ c, z.head? = some c → isJsWs c = false) :
    ltrim z = z := by
  cases z with
  | nil => rfl
  | cons c cs =>
    unfold ltrim
    rw [List.dropWhile_cons_of_neg (by simp [h c rfl])]

/-- Helper: mapping a function that fixes every element is the identity. -/
theorem map_rstrip_eq_self : ∀ (X : List (List Char)),
    (∀ l ∈ X, rstrip l = l) → X.map rstrip = X := by
  intro X
  induction X with
  | nil => intro _; rfl
  | cons a as ih =>
    intro h
    simp only [List.map_cons, h a (List.mem_cons_self _ _),
      ih (fun l hl => h l (List.mem_cons_of_mem _ hl))]

/-- Helper: a non-blank list holds a non-whitespace character. -/
theorem exists_nonws_of_not_blank : ∀ (l : List Char),
    isBlank l = false → ∃ c ∈ l, isJsWs c = false := by
  intro l
  induction l with
  | nil => intro h; simp [isBlank] at h
  | cons a as ih =>
    intro h
    by_cases ha : isJsWs a
    · have hrec : isBlank as = false := by simpa [isBlank, ha] using h
      rcases ih hrec with ⟨c, hc, hpc⟩
      exact ⟨c, List.mem_cons_of_mem a hc, hpc⟩
    · exact ⟨a, List.mem_cons_self _ _, by simpa using ha⟩

/-- Helper: `dropWhile` distributes over an append whose left part contains a
character failing the predicate. -/
theorem dropWhile_append_stop (p : Char → Bool) :
    ∀ (x y : List Char), (∃ c ∈ x, p c = false) →
      (x ++ y).dropWhile p = x.dropWhile p ++ y := by
  intro x
  induction x with
  | nil => intro y h; simp at h
  | cons a xs ih =>
    intro y h
    by_cases ha : p a
    · rw [List.cons_append, List.dropWhile_cons_of_pos ha, List.dropWhile_cons_of_pos ha]
      refine ih y ?_
      rcases h with ⟨c, hc, hpc⟩
      rcases List.mem_cons.mp hc with rfl | hc'
      · rw [ha] at hpc
        exact absurd hpc (by simp)
      · exact ⟨c, hc', hpc⟩
    · rw [List.cons_append, List.dropWhile_cons_of_neg (by simpa using ha),
        List.dropWhile_cons_of_neg (by simpa using ha), List.cons_append]

/-- Helper: `ltrim` over a join trims only inside a non-blank first line. -/
theorem ltrim_joinNl_cons (m0 : List Char) (M : List (List Char))
    (hm0 : isBlank m0 = false) :
    ltrim (joinNl (m0 :: M)) = joinNl (ltrim m0 :: M) := by
  cases M with
  | nil => rfl
  | cons m1 Ms =>
    show ltrim (m0 ++ '\n' :: joinNl (m1 :: Ms)) = ltrim m0 ++ '\n' :: joinNl (m1 :: Ms)
    exact dropWhile_append_stop isJsWs m0 _ (exists_nonws_of_not_blank m0 hm0)

/-- Helper: the last character of a join of nonempty lines with
non-whitespace last characters is itself non-whitespace. -/
theorem getLast?_joinNl_nonws : ∀ (M : List (List Char)),
    (∀ l ∈ M, l ≠ [] ∧ (∀ c, l.getLast? = some c → isJsWs c = false)) → M ≠ [] →
    ∀ c, (joinNl M).getLast? = some c → isJsWs c = false := by
  intro M
  induction M with
  | nil => intro _ h; exact absurd rfl h
  | cons m0 Ms ih =>
    intro hM _ c hc
    cases Ms with
    | nil => exact (hM m0 (by simp)).2 c (by simpa [joinNl] using hc)
    | cons m1 Ms2 =>
      have hj : joinNl (m0 :: m1 :: Ms2) = m0 ++ '\n' :: joinNl (m1 :: Ms2) := rfl
      rw [hj, List.getLast?_append_of_ne_nil _ (by simp)] at hc
      have hR : joinNl (m1 :: Ms2) ≠ [] := joinNl_cons_ne_nil m1 Ms2 (hM m1 (by simp)).1
      cases hR2 : joinNl (m1 :: Ms2) with
      | nil => exact absurd hR2 hR
      | cons r rs =>
        rw [hR2, List.getLast?_cons_cons] at hc
        refine ih (fun l hl => hM l (List.mem_cons_of_mem _ hl)) (by simp) c ?_
        rw [hR2]
        exact hc

/-- Helper: the head of a join of lines with a nonempty first line is the
first line's head. -/
theorem head?_joinNl_cons (m : List Char) (M : List (List Char)) (hm : m ≠ []) :
    (joinNl (m :: M)).head? = m.head? := by
  cases M with
  | nil => rfl
  | cons m1 Ms =>
    show (m ++ '\n' :: joinNl (m1 :: Ms)).head? = m.head?
    cases m with
    | nil => exact absurd rfl hm
    | cons a as => rfl

/-- Helper: the last character of `ltrim l` is that of `l` when the trim
leaves something. -/
theorem getLast?_ltrim (l : List Char) (h : ltrim l ≠ []) :
    (ltrim l).getLast? = l.getLast? := by
  have hsplit : l = l.takeWhile isJsWs ++ ltrim l := (List.takeWhile_append_dropWhile ..).symm
  conv_rhs => rw [hsplit]
  rw [List.getLast?_append_of_ne_nil _ h]

/-- Helper: the filtered, trailing-stripped line list built by `postProcess`
consists of nonempty, newline-free, non-blank lines ending in non-whitespace
characters. -/
theorem ppLines_props (s : List Char) :
    ∀ l ∈ ((splitLines s).map rstrip).filter (fun l => !isBlank l),
      l ≠ [] ∧ '\n' ∉ l ∧ isBlank l = false ∧
        (∀ c, l.getLast? = some c → isJsWs c = false) := by
  intro l hl
  have hfil : (!isBlank l) = true := (List.mem_filter.mp hl).2
  have hblank : isBlank l = false := by simpa using hfil
  have hmap := (List.mem_filter.mp hl).1
  rcases List.mem_map.mp hmap with ⟨piece, hpiece, rfl⟩
  refine ⟨?_, ?_, hblank, fun c hc => rstrip_getLast piece c hc⟩
  · intro h0
    rw [h0] at hblank
    simp [isBlank] at hblank
  · intro hmem
    exact splitLinesF_no_nl _ _ piece le_rfl hpiece (mem_rstrip hmem)

/-- Key lemma for C7: the post-processing pass of `stripComments` (split,
strip trailing whitespace, drop blank lines, rejoin, trim) is idempotent. -/
theorem postProcess_idem (s : List Char) : postProcess (postProcess s) = postProcess s := by
  have hprops := ppLines_props s
  cases hLc : ((splitLines s).map rstrip).filter (fun l => !isBlank l) with
  | nil =>
    have h1 : postProcess s = [] := by
      unfold postProcess
      rw [hLc]
      rfl
    rw [h1]
    rfl
  | cons m0 M =>
    rw [hLc] at hprops
    have hm0 := hprops m0 (List.mem_cons_self _ _)
    have hMprops : ∀ l ∈ M, l ≠ [] ∧ '\n' ∉ l ∧ isBlank l = false ∧
        (∀ c, l.getLast? = some c → isJsWs c = false) :=
      fun l hl => hprops l (List.mem_cons_of_mem _ hl)
    have hlm0ne : ltrim m0 ≠ [] := by
      unfold ltrim
      rw [Ne, List.dropWhile_eq_nil_iff]
      intro hall
      rcases exists_nonws_of_not_blank m0 hm0.2.2.1 with ⟨c, hc, hpc⟩
      rw [hall c hc] at hpc
      exact absurd hpc (by simp)
    have hlm0head : ∀ c, (ltrim m0).head? = some c → isJsWs c = false :=
      fun c hc => head?_dropWhile isJsWs m0 c hc
    have hlm0blank : isBlank (ltrim m0) = false := by
      cases hlt : ltrim m0 with
      | nil => exact absurd hlt hlm0ne
      | cons c cs =>
        have : isJsWs c = false := hlm0head c (by rw [hlt]; rfl)
        simp [isBlank, this]
    have hlm0last : (ltrim m0).getLast? = m0.getLast? := getLast?_ltrim m0 hlm0ne
    have hlm0nl : '\n' ∉ ltrim m0 := fun h => hm0.2.1 (mem_ltrim h)
    have hMline : ∀ l ∈ (ltrim m0 :: M), l ≠ [] ∧ '\n' ∉ l ∧ isBlank l = false ∧
        (∀ c, l.getLast? = some c → isJsWs c = false) := by
      intro l hl
      rcases List.mem_cons.mp hl with rfl | hl'
      · exact ⟨hlm0ne, hlm0nl, hlm0blank,
          fun c hc => hm0.2.2.2 c (by rw [← hlm0last]; exact hc)⟩
      · exact hMprops l hl'
    have hy : postProcess s = joinNl (ltrim m0 :: M) := by
      unfold postProcess
      rw [hLc]
      unfold trimL
      rw [ltrim_joinNl_cons m0 M hm0.2.2.1]
      exact rstrip_eq_self _ (getLast?_joinNl_nonws (ltrim m0 :: M)
        (fun l hl => ⟨(hMline l hl).1, (hMline l hl).2.2.2⟩) (by simp))
    rw [hy]
    unfold postProcess
    have hsplit : splitLines (joinNl (ltrim m0 :: M)) = ltrim m0 :: M :=
      splitLines_joinNl (ltrim m0 :: M)
        (fun l hl => ⟨(hMline l hl).2.1, fun hr => by
          have := (hMline l hl).2.2.2 '\r' hr
          exact absurd this (by decide)⟩) (by simp)
    rw [hsplit]
    rw [map_rstrip_eq_self _ (fun l hl => rstrip_eq_self l (hMline l hl).2.2.2)]
    rw [List.filter_eq_self.mpr (fun l hl => by simp [(hMline l hl).2.2.1])]
    unfold trimL
    rw [ltrim_eq_self _ (fun c hc => by
      rw [head?_joinNl_cons _ _ hlm0ne] at hc
      exact hlm0head c hc)]
    exact rstrip_eq_self _ (getLast?_joinNl_nonws (ltrim m0 :: M)
      (fun l hl => ⟨(hMline l hl).1, (hMline l hl).2.2.2⟩) (by simp))

/-- C7 (amended): `stripComments` is idempotent on every input free of the
characters `'<'`, `'/'` and `'#'` which can open a comment construct.  On
such inputs all four removal passes are the identity (on the input and on
the output, whose characters come from the input plus the `'\n'`
separator), so both applications reduce to the post-processing pass, which
`postProcess_idem` shows is idempotent.  Idempotence does not hold in
general — see `C7_cex`, where a span removal splices a new `<!-- -->`
comment out of the surrounding text. -/
theorem C7_idempotent_marker_free (x : String)
    (h1 : ∀ c ∈ x.data, c ≠ '<') (h2 : ∀ c ∈ x.data, c ≠ '/')
    (h3 : ∀ c ∈ x.data, c ≠ '#') :
    stripComments (stripComments x) = stripComments x := by
  by_cases hx : x.data = []
  · show String.mk (stripCommentsL (stripCommentsL x.data)) =
      String.mk (stripCommentsL x.data)
    rw [hx]
    rfl
  · have hA : stripCommentsL x.data = postProcess x.data :=
      stripCommentsL_eq_postProcess _ h1 h2 h3 hx
    have hmem : ∀ c ∈ stripCommentsL x.data, c ∈ x.data ∨ c = '\n' := by
      rw [hA]
      exact fun c hc => mem_postProcess x.data c hc
    by_cases hy : stripCommentsL x.data = []
    · show String.mk (stripCommentsL (stripCommentsL x.data)) =
        String.mk (stripCommentsL x.data)
      rw [hy]
      rfl
    · have g1 : ∀ c ∈ stripCommentsL x.data, c ≠ '<' := by
        intro c hc
        rcases hmem c hc with h | h
        · exact h1 c h
        · subst h; decide
      have g2 : ∀ c ∈ stripCommentsL x.data, c ≠ '/' := by
        intro c hc
        rcases hmem c hc with h | h
        · exact h2 c h
        · subst h; decide
      have g3 : ∀ c ∈ stripCommentsL x.data, c ≠ '#' := by
        intro c hc
        rcases hmem c hc with h | h
        · exact h3 c h
        · subst h; decide
      have hB : stripCommentsL (stripCommentsL x.data) =
          postProcess (stripCommentsL x.data) :=
        stripCommentsL_eq_postProcess _ g1 g2 g3 hy
      show String.mk (stripCommentsL (stripCommentsL x.data)) =
        String.mk (stripCommentsL x.data)
      rw [hB, hA, postProcess_idem]

/-- Counterexample to C7 as stated: on `"<<!-- -->!-- x -->"` the global
`<!-- ... -->` removal deletes the span from the first `<!--` (at index 1)
to the first `-->`, and the splice of the surviving pieces forms the brand
new comment `"<!-- x -->"`, which a second application deletes entirely —
`stripComments` is not idempotent. -/
theorem C7_cex :
    stripComments (stripComments "<<!-- -->!-- x -->") ≠
      stripComments "<<!-- -->!-- x -->" := by
  decide

/-- Witness for `C7_idempotent_marker_free` on a concrete marker-free input
with blank runs and trailing whitespace. -/
theorem C7_idempotent_marker_free_witness :
    stripComments (stripComments "alpha  \n\n\n beta\n") =
      stripComments "alpha  \n\n\n beta\n" :=
  C7_idempotent_marker_free "alpha  \n\n\n beta\n" (by decide) (by decide) (by decide)

end Jarnox
